import Mathlib

/-!
Verification development for a small in-memory limit-order-book matching core
(`models.py`, `orderbook.py`, `matcher.py`).  The data model and every book /
matcher operation is embedded shallowly below.  Python dictionaries are
modelled as association lists (lookup and update take the first matching key,
which coincides with dictionary behaviour since the code never creates a
duplicate key); `bisect.insort` and the `bisect_left`-plus-`pop` removal in
`_cleanup_level_if_empty` are modelled by their effect on an ascending sorted
list, which is the only situation in which the code invokes them.  The two
recursive computations (the retry recursion of `get_best_resting` and the
`while` loop of `match_order`) are embedded with an explicit fuel argument so
that every definition is a computable structural recursion; the entry points
pass one more unit of fuel than the recursion can consume on any well-formed
state, which is proved below (claim C9).  Fresh trade ids are modelled as
successive naturals and timestamps as 0: the code draws them from
`uuid.uuid4()` and `time.time()` and no claim depends on their values.
-/

namespace Exchange

/-- Side enum from models.py. -/
inductive Side where
  | BUY
  | SELL
deriving DecidableEq

/-- OrderType enum from models.py. -/
inductive OrderType where
  | LIMIT
  | MARKET
deriving DecidableEq

/-- OrderStatus enum from models.py.  `PARTFILL` embeds the PARTIAL member of
the source enum (the original name collides with a reserved word filter of the
toolchain). -/
inductive OrderStatus where
  | NEW
  | RESTING
  | PARTFILL
  | FILLED
  | CANCELED
  | REJECTED
deriving DecidableEq

/-- Order dataclass from models.py. -/
structure Order where
  user_id : String
  symbol : String
  side : Side
  type : OrderType
  qty : Nat
  price_cents : Option Nat
  client_order_id : Option String
  order_id : String
  created_ms : Nat
  remaining_qty : Nat
  status : OrderStatus
  active : Bool
deriving DecidableEq

/-- Trade dataclass from models.py (trade ids modelled as naturals,
timestamps as 0). -/
structure Trade where
  trade_id : Nat
  symbol : String
  price_cents : Nat
  qty : Nat
  maker_order_id : String
  taker_order_id : String
  ts_ms : Nat
deriving DecidableEq

/-- OrderBook state from orderbook.py: the authoritative order map, the two
price-to-FIFO-queue dictionaries, and the two ascending sorted price lists. -/
structure OrderBook where
  symbol : String
  orders : List (String × Order)
  bids : List (Nat × List String)
  asks : List (Nat × List String)
  bid_prices : List Nat
  ask_prices : List Nat
deriving DecidableEq

/-- Dictionary lookup (`d.get(k)`): the value of the first pair with this key. -/
def alGet {α β : Type} [DecidableEq α] : List (α × β) → α → Option β
  | [], _ => none
  | (a, b) :: t, k => if a = k then some b else alGet t k

/-- Dictionary write (`d[k] = v`): update the first pair with this key in
place, or append a new pair. -/
def alSet {α β : Type} [DecidableEq α] : List (α × β) → α → β → List (α × β)
  | [], k, v => [(k, v)]
  | (a, b) :: t, k, v => if a = k then (k, v) :: t else (a, b) :: alSet t k v

/-- Dictionary deletion (`del d[k]`): drop the first pair with this key. -/
def alErase {α β : Type} [DecidableEq α] : List (α × β) → α → List (α × β)
  | [], _ => []
  | (a, b) :: t, k => if a = k then t else (a, b) :: alErase t k

/-- `bisect.insort` on an ascending list: insert keeping the order. -/
def insortAsc : List Nat → Nat → List Nat
  | [], x => [x]
  | a :: t, x => if x < a then x :: a :: t else a :: insortAsc t x

/-- The removal in `_cleanup_level_if_empty`: `bisect_left` followed by a
guarded `pop`, i.e. on an ascending list, remove the occurrence of `x` if
present and leave the list unchanged otherwise. -/
def removeSorted : List Nat → Nat → List Nat
  | [], _ => []
  | a :: t, x => if a < x then a :: removeSorted t x else if a = x then t else a :: t

/-- The price-to-queue dictionary of one side (`self.bids` / `self.asks`). -/
def OrderBook.levels (b : OrderBook) : Side → List (Nat × List String)
  | Side.BUY => b.bids
  | Side.SELL => b.asks

/-- The sorted price list of one side (`self.bid_prices` / `self.ask_prices`). -/
def OrderBook.prices (b : OrderBook) : Side → List Nat
  | Side.BUY => b.bid_prices
  | Side.SELL => b.ask_prices

/-- Replace the price-to-queue dictionary of one side. -/
def OrderBook.setLevels (b : OrderBook) : Side → List (Nat × List String) → OrderBook
  | Side.BUY, ls => { b with bids := ls }
  | Side.SELL, ls => { b with asks := ls }

/-- Replace the sorted price list of one side. -/
def OrderBook.setPrices (b : OrderBook) : Side → List Nat → OrderBook
  | Side.BUY, ps => { b with bid_prices := ps }
  | Side.SELL, ps => { b with ask_prices := ps }

/-- `OrderBook._ensure_price_level`. -/
def ensurePriceLevel (b : OrderBook) (s : Side) (p : Nat) : OrderBook :=
  match alGet (b.levels s) p with
  | some _ => b
  | none => (b.setLevels s (alSet (b.levels s) p [])).setPrices s (insortAsc (b.prices s) p)

/-- `OrderBook._cleanup_level_if_empty`. -/
def cleanupLevelIfEmpty (b : OrderBook) (s : Side) (p : Nat) : OrderBook :=
  match alGet (b.levels s) p with
  | some [] => (b.setLevels s (alErase (b.levels s) p)).setPrices s (removeSorted (b.prices s) p)
  | _ => b

/-- Eligibility test used all over orderbook.py:
`o and o.active and o.remaining_qty > 0` for the order stored under `oid`. -/
def live (orders : List (String × Order)) (oid : String) : Bool :=
  match alGet orders oid with
  | some o => o.active && decide (0 < o.remaining_qty)
  | none => false

/-- The `while q:` scan of `_pop_next_active_at_price`: drop ineligible head
entries until an eligible one is found; return the remaining queue together
with the found entry (the Python code returns the order object, i.e. a
reference into the authoritative map; the pair `(oid, o)` models that
reference). -/
def scanQueue (orders : List (String × Order)) : List String → List String × Option (String × Order)
  | [] => ([], none)
  | oid :: rest =>
    match alGet orders oid with
    | some o =>
      if o.active = true ∧ 0 < o.remaining_qty then (oid :: rest, some (oid, o))
      else scanQueue orders rest
    | none => scanQueue orders rest

/-- Store a new queue for price `p` on side `s`. -/
def setLevelQueue (b : OrderBook) (s : Side) (p : Nat) (q : List String) : OrderBook :=
  b.setLevels s (alSet (b.levels s) p q)

/-- `OrderBook._pop_next_active_at_price`.  Note the early return when the
level is missing or its queue is empty (`if not q`), and the cleanup call
only on the path where the scan exhausted the queue. -/
def popNextActiveAtPrice (b : OrderBook) (s : Side) (p : Nat) : OrderBook × Option (String × Order) :=
  match alGet (b.levels s) p with
  | none => (b, none)
  | some q =>
    if q = [] then (b, none)
    else
      match scanQueue b.orders q with
      | (q2, some om) => (setLevelQueue b s p q2, some om)
      | (q2, none) => (cleanupLevelIfEmpty (setLevelQueue b s p q2) s p, none)

/-- `OrderBook.best_bid`: last element of the ascending bid price list. -/
def OrderBook.best_bid (b : OrderBook) : Option Nat := b.bid_prices.getLast?

/-- `OrderBook.best_ask`: first element of the ascending ask price list. -/
def OrderBook.best_ask (b : OrderBook) : Option Nat := b.ask_prices.head?

/-- Best resting price of a side: highest bid for BUY, lowest ask for SELL. -/
def OrderBook.bestPrice (b : OrderBook) : Side → Option Nat
  | Side.BUY => b.best_bid
  | Side.SELL => b.best_ask

/-- The retry recursion of `OrderBook.get_best_resting`, with explicit fuel.
Each retry happens only after `_pop_next_active_at_price` returned none, which
on a well-formed book removes one price level, so the recursion depth is
bounded by the length of the price list. -/
def gbrAux (s : Side) : Nat → OrderBook → OrderBook × Option (String × Order)
  | 0, b => (b, none)
  | Nat.succ f, b =>
    match b.bestPrice s with
    | none => (b, none)
    | some p =>
      match popNextActiveAtPrice b s p with
      | (b1, some om) => (b1, some om)
      | (b1, none) => gbrAux s f b1

/-- `OrderBook.get_best_resting`, with fuel sufficient for any well-formed
book (one retry per removed price level plus the final lookup). -/
def get_best_resting (b : OrderBook) (s : Side) : OrderBook × Option (String × Order) :=
  gbrAux s ((b.prices s).length + 1) b

/-- `OrderBook.cancel`: lazy cancel, touching only the authoritative map. -/
def OrderBook.cancel (b : OrderBook) (order_id : String) : OrderBook × Bool :=
  match alGet b.orders order_id with
  | none => (b, false)
  | some o =>
    if o.active = false ∨ o.remaining_qty = 0 then (b, false)
    else
      let o2 := { o with active := false, remaining_qty := 0, status := OrderStatus.CANCELED }
      ({ b with orders := alSet b.orders order_id o2 }, true)

/-- `OrderBook.add_resting_limit`.  The two `raise ValueError` paths are
modelled as `Except.error` with the source messages. -/
def add_resting_limit (b : OrderBook) (o : Order) : Except String OrderBook :=
  if o.symbol ≠ b.symbol then Except.error "Order symbol does not match book symbol"
  else
    match o.price_cents with
    | none => Except.error "Only LIMIT orders can rest in book (price required)"
    | some p =>
      let stored := { o with status := OrderStatus.RESTING }
      let b1 := { b with orders := alSet b.orders o.order_id stored }
      let b2 := ensurePriceLevel b1 o.side p
      Except.ok (setLevelQueue b2 o.side p (((alGet (b2.levels o.side) p).getD []) ++ [o.order_id]))

/-- Sum of remaining quantity over the eligible orders of one queue, i.e. the
`total` accumulation of `snapshot_l2`. -/
def sumEligible (orders : List (String × Order)) : List String → Nat
  | [] => 0
  | oid :: rest =>
    (match alGet orders oid with
     | some o => if o.active = true ∧ 0 < o.remaining_qty then o.remaining_qty else 0
     | none => 0) + sumEligible orders rest

/-- The Python slice `l[-depth:]`: the last `depth` elements, except that
`depth = 0` yields the whole list (`l[-0:] == l[0:]`). -/
def pyLastSlice (l : List Nat) (depth : Nat) : List Nat :=
  if depth = 0 then l else l.drop (l.length - depth)

/-- `OrderBook.snapshot_l2`: first component the bid levels (highest price
first), second the ask levels (lowest price first). -/
def snapshot_l2 (b : OrderBook) (depth : Nat) : List (Nat × Nat) × List (Nat × Nat) :=
  ((pyLastSlice b.bid_prices depth).reverse.map
      (fun p => (p, sumEligible b.orders ((alGet b.bids p).getD []))),
   (b.ask_prices.take depth).map
      (fun p => (p, sumEligible b.orders ((alGet b.asks p).getD []))))

/-- The record stored by a successful cancel: inactive, zero remaining
quantity, status CANCELED. -/
def canceledUpd (o : Order) : Order :=
  { o with active := false, remaining_qty := 0, status := OrderStatus.CANCELED }

/-- The book with its authoritative order map replaced. -/
def withOrders (b : OrderBook) (os : List (String × Order)) : OrderBook :=
  { b with orders := os }

/-- The trade record produced by one iteration of the match loop (fresh ids
modelled as the running counter, timestamps as 0). -/
def mkTrade (nid : Nat) (sym : String) (m taker : Order) (qty : Nat) : Trade :=
  { trade_id := nid, symbol := sym, price_cents := m.price_cents.getD 0, qty := qty,
    maker_order_id := m.order_id, taker_order_id := taker.order_id, ts_ms := 0 }

/-- Side of the resting orders a taker matches against. -/
def oppSide : Side → Side
  | Side.BUY => Side.SELL
  | Side.SELL => Side.BUY

/-- The crossing test of the match loop: a BUY taker continues only when the
best ask exists and is at most the taker limit, a SELL taker only when the
best bid exists and is at least the taker limit.  `price_cents` is always
`some` for the validated LIMIT takers that reach this test; `getD 0` stands in
for the unreachable `none` case. -/
def takerCrosses (b : OrderBook) (taker : Order) : Bool :=
  match taker.side with
  | Side.BUY =>
    match b.best_ask with
    | none => false
    | some ba => decide (ba ≤ taker.price_cents.getD 0)
  | Side.SELL =>
    match b.best_bid with
    | none => false
    | some bb => decide (taker.price_cents.getD 0 ≤ bb)

/-- One maker update of the match loop: decrement the remaining quantity and
set FILLED/inactive when exhausted, PARTFILL otherwise. -/
def fillUpdate (o : Order) (qty : Nat) : Order :=
  { o with
    remaining_qty := o.remaining_qty - qty,
    status := if o.remaining_qty - qty = 0 then OrderStatus.FILLED else OrderStatus.PARTFILL,
    active := if o.remaining_qty - qty = 0 then false else o.active }

/-- The `while taker.remaining_qty > 0` loop of `match_order`, with explicit
fuel.  Every productive iteration matches an eligible maker, whose remaining
quantity is positive, so the taker remaining quantity strictly decreases and
`remaining_qty + 1` units of fuel always suffice (claim C9). -/
def matchLoopAux : Nat → OrderBook → Order → Nat → OrderBook × Order × List Trade
  | 0, book, taker, _ => (book, taker, [])
  | Nat.succ f, book, taker, nid =>
    if 0 < taker.remaining_qty then
      if takerCrosses book taker then
        match get_best_resting book (oppSide taker.side) with
        | (book1, some om) =>
          let qty := min taker.remaining_qty om.2.remaining_qty
          let book2 := withOrders book1 (alSet book1.orders om.1 (fillUpdate om.2 qty))
          let r := matchLoopAux f book2 (fillUpdate taker qty) (nid + 1)
          (r.1, r.2.1, mkTrade nid book.symbol om.2 taker qty :: r.2.2)
        | (book1, none) => (book1, taker, [])
      else (book, taker, [])
    else (book, taker, [])

/-- `match_order` from matcher.py.  The result carries the final book, the
final state of the taker object, and the trade list; the `ValueError` raised
by `add_resting_limit` (unreachable for validated takers) surfaces as
`Except.error`. -/
def match_order (book : OrderBook) (taker : Order) : Except String (OrderBook × Order × List Trade) :=
  if taker.symbol ≠ book.symbol then
    Except.ok (book, { taker with status := OrderStatus.REJECTED, active := false }, [])
  else if taker.type ≠ OrderType.LIMIT then
    Except.ok (book, { taker with status := OrderStatus.REJECTED, active := false }, [])
  else
    let r := matchLoopAux (taker.remaining_qty + 1) book taker 0
    if 0 < r.2.1.remaining_qty then
      match add_resting_limit r.1 r.2.1 with
      | Except.ok b2 => Except.ok (b2, { r.2.1 with status := OrderStatus.RESTING }, r.2.2)
      | Except.error e => Except.error e
    else
      Except.ok (r.1, r.2.1, r.2.2)

/-- `OrderBook.__init__`. -/
def emptyBook (sym : String) : OrderBook :=
  { symbol := sym, orders := [], bids := [], asks := [], bid_prices := [], ask_prices := [] }

/-- The FIFO queue resting at price `p` on side `s` (empty when the level is
absent). -/
def queueOf (b : OrderBook) (s : Side) (p : Nat) : List String :=
  (alGet (b.levels s) p).getD []

/-- The order stored under `oid` exists and rests on side `s` at price `p`. -/
def ordAt (orders : List (String × Order)) (oid : String) (s : Side) (p : Nat) : Bool :=
  match alGet orders oid with
  | some o => decide (o.side = s ∧ o.price_cents = some p)
  | none => false

/-- Structural well-formedness of one side of the book, maintained by every
public operation: the price list is strictly ascending; a price is listed
exactly when its level exists; level queues are non-empty, duplicate-free and
hold ids of orders of that side and price; level keys are duplicate-free. -/
def WfSide (b : OrderBook) (s : Side) : Prop :=
  List.Pairwise (· < ·) (b.prices s) ∧
  (∀ p ∈ b.prices s, (alGet (b.levels s) p).isSome = true) ∧
  (∀ pr ∈ b.levels s, pr.1 ∈ b.prices s) ∧
  (∀ pr ∈ b.levels s, pr.2 ≠ [] ∧ pr.2.Nodup ∧ ∀ oid ∈ pr.2, ordAt b.orders oid s pr.1 = true) ∧
  ((b.levels s).map Prod.fst).Nodup

/-- Every entry of the authoritative map stores an order whose id is its key. -/
def KeysConsistent (b : OrderBook) : Prop :=
  ∀ pr ∈ b.orders, pr.2.order_id = pr.1

/-- Structural well-formedness of a book. -/
def Wf (b : OrderBook) : Prop :=
  WfSide b Side.BUY ∧ WfSide b Side.SELL ∧ KeysConsistent b

/-- Terminal statuses of the order state machine. -/
def isTerminal (st : OrderStatus) : Prop :=
  st = OrderStatus.REJECTED ∨ st = OrderStatus.FILLED ∨ st = OrderStatus.CANCELED

/-- Status invariant of the authoritative map: stored orders are never NEW or
REJECTED, and a terminal status implies the order is inactive. -/
def StatusInv (b : OrderBook) : Prop :=
  ∀ pr ∈ b.orders,
    pr.2.status ≠ OrderStatus.NEW ∧ pr.2.status ≠ OrderStatus.REJECTED ∧
    (isTerminal pr.2.status → pr.2.active = false)

/-- The status transitions admitted by the specified state machine (staying
put included): NEW to REJECTED, RESTING or FILLED; RESTING and PARTFILL to
PARTFILL, FILLED or CANCELED. -/
def AllowedChange (a c : OrderStatus) : Prop :=
  a = c ∨
  (a = OrderStatus.NEW ∧
    (c = OrderStatus.REJECTED ∨ c = OrderStatus.RESTING ∨ c = OrderStatus.FILLED)) ∨
  (a = OrderStatus.RESTING ∧
    (c = OrderStatus.PARTFILL ∨ c = OrderStatus.FILLED ∨ c = OrderStatus.CANCELED)) ∨
  (a = OrderStatus.PARTFILL ∧
    (c = OrderStatus.PARTFILL ∨ c = OrderStatus.FILLED ∨ c = OrderStatus.CANCELED))

/-- Remaining quantity of the order stored under `oid` (0 when absent). -/
def remAt (b : OrderBook) (oid : String) : Nat :=
  match alGet b.orders oid with
  | some o => o.remaining_qty
  | none => 0

/-- Remaining quantity of the order stored under `oid` in an order map
(0 when absent). -/
def remOf (orders : List (String × Order)) (oid : String) : Nat :=
  match alGet orders oid with
  | some o => o.remaining_qty
  | none => 0

/-- Total executed quantity of a trade list. -/
def sumQty : List Trade → Nat
  | [] => 0
  | t :: r => t.qty + sumQty r

/-- Total executed quantity of the trades naming `oid` as maker. -/
def sumQtyFor (oid : String) : List Trade → Nat
  | [] => 0
  | t :: r => (if t.maker_order_id = oid then t.qty else 0) + sumQtyFor oid r

/-- `p1` is a strictly better resting price than `p2` on side `s`: lower for
the ask side, higher for the bid side. -/
def betterPrice (s : Side) (p1 p2 : Nat) : Prop :=
  match s with
  | Side.SELL => p1 < p2
  | Side.BUY => p2 < p1

/-- The resting order `oid1` has strict price-time priority over `oid2` on
side `s`: either it rests at a strictly better price, or both rest at the
same price with `oid1` queued ahead of `oid2`. -/
def HigherPriority (b : OrderBook) (s : Side) (oid1 oid2 : String) : Prop :=
  (∃ p1 p2, p1 ∈ b.prices s ∧ p2 ∈ b.prices s ∧
    oid1 ∈ queueOf b s p1 ∧ oid2 ∈ queueOf b s p2 ∧ betterPrice s p1 p2) ∨
  (∃ p, p ∈ b.prices s ∧ ∃ l1 l2 l3, queueOf b s p = l1 ++ oid1 :: (l2 ++ oid2 :: l3))

/-- The validation performed by `Order.__post_init__` together with the
initial field values of a freshly constructed order. -/
def ValidNewOrder (o : Order) : Prop :=
  o.status = OrderStatus.NEW ∧ o.active = true ∧ o.remaining_qty = o.qty ∧ 0 < o.qty ∧
  (o.type = OrderType.LIMIT → o.price_cents ≠ none ∧ 0 < o.price_cents.getD 0) ∧
  (o.type = OrderType.MARKET → o.price_cents = none)

/-- How one side of the book evolves across a lazy-deletion pass
(`_pop_next_active_at_price` and the retries of `get_best_resting`): every
existing level either consisted only of ineligible entries (and may have been
deleted), or survives as a suffix of its old queue from which only ineligible
head entries were discarded; no level is created; the sorted price list only
loses prices, and a lost price level held no eligible entry. -/
def sideEvolve (b b2 : OrderBook) (s : Side) : Prop :=
  (∀ p2 q, alGet (b.levels s) p2 = some q →
    (∀ x ∈ q, live b.orders x = false) ∨
    ∃ pre q2, alGet (b2.levels s) p2 = some q2 ∧ q = pre ++ q2 ∧
      ∀ x ∈ pre, live b.orders x = false) ∧
  (∀ p2, alGet (b.levels s) p2 = none → alGet (b2.levels s) p2 = none) ∧
  List.Sublist (b2.prices s) (b.prices s) ∧
  (∀ p2 q, alGet (b.levels s) p2 = some q → p2 ∈ b.prices s → p2 ∉ b2.prices s →
    ∀ x ∈ q, live b.orders x = false)

/-- Book states reachable through the public entry points: a fresh book, a
`match_order` call, or a `cancel` call. -/
inductive Reachable : OrderBook → Prop where
  | init : ∀ sym, Reachable (emptyBook sym)
  | step_match : ∀ b t b2 t2 tr, Reachable b →
      match_order b t = Except.ok (b2, t2, tr) → Reachable b2
  | step_cancel : ∀ b oid, Reachable b → Reachable (OrderBook.cancel b oid).1

instance (b : OrderBook) (s : Side) : Decidable (WfSide b s) := by
  unfold WfSide
  infer_instance

instance (b : OrderBook) : Decidable (KeysConsistent b) := by
  unfold KeysConsistent
  infer_instance

instance (b : OrderBook) : Decidable (Wf b) := by
  unfold Wf
  infer_instance

instance (st : OrderStatus) : Decidable (isTerminal st) := by
  unfold isTerminal
  infer_instance

instance (b : OrderBook) : Decidable (StatusInv b) := by
  unfold StatusInv
  infer_instance

instance (a c : OrderStatus) : Decidable (AllowedChange a c) := by
  unfold AllowedChange
  infer_instance

instance (o : Order) : Decidable (ValidNewOrder o) := by
  unfold ValidNewOrder
  infer_instance

instance (s : Side) (p1 p2 : Nat) : Decidable (betterPrice s p1 p2) := by
  cases s <;> (unfold betterPrice; infer_instance)

/-- Order record as produced by the constructor of models.py. -/
def mkNewOrder (uid sym : String) (s : Side) (t : OrderType) (q : Nat)
    (p : Option Nat) (oid : String) : Order :=
  { user_id := uid, symbol := sym, side := s, type := t, qty := q, price_cents := p,
    client_order_id := none, order_id := oid, created_ms := 0, remaining_qty := q,
    status := OrderStatus.NEW, active := true }

/-- Book after a successful `match_order` call (used to build example states). -/
def resBook (b : OrderBook) (t : Order) : OrderBook :=
  match match_order b t with
  | Except.ok r => r.1
  | Except.error _ => b

/-- Final taker state of a successful `match_order` call. -/
def resTaker (b : OrderBook) (t : Order) : Order :=
  match match_order b t with
  | Except.ok r => r.2.1
  | Except.error _ => t

/-- Trade list of a successful `match_order` call. -/
def resTrades (b : OrderBook) (t : Order) : List Trade :=
  match match_order b t with
  | Except.ok r => r.2.2
  | Except.error _ => []

/-- Book after a direct `add_resting_limit` call (used to build example
states; falls back to the input book on the error path). -/
def addBook (b : OrderBook) (o : Order) : OrderBook :=
  match add_resting_limit b o with
  | Except.ok b2 => b2
  | Except.error _ => b

/-- Example: a sell resting at 100 then canceled, a live sell resting at 110.
The ask price list still holds the stale level 100. -/
def exSell100 : Order := mkNewOrder "u1" "A" Side.SELL OrderType.LIMIT 5 (some 100) "s1"

def exSell110 : Order := mkNewOrder "u2" "A" Side.SELL OrderType.LIMIT 5 (some 110) "s2"

def exBuy105 : Order := mkNewOrder "u3" "A" Side.BUY OrderType.LIMIT 5 (some 105) "b1"

/-- The book with both sells resting (both levels live). -/
def exBook2 : OrderBook := resBook (resBook (emptyBook "A") exSell100) exSell110

/-- The book after canceling the sell at 100: level 100 is stale. -/
def exStaleBook : OrderBook := (exBook2.cancel "s1").1

/-- Example book with a single live resting sell at 100 for quantity 5. -/
def exBook1 : OrderBook := resBook (emptyBook "A") exSell100

/-- Example book with one live resting bid at 100 for quantity 3. -/
def exBuy100 : Order := mkNewOrder "u4" "A" Side.BUY OrderType.LIMIT 3 (some 100) "o1"

def exBidBook : OrderBook := resBook (emptyBook "A") exBuy100

/-- Example used for the FIFO claims: two sells resting at the same price,
queued in arrival order. -/
def exFifoS1 : Order := mkNewOrder "u5" "A" Side.SELL OrderType.LIMIT 4 (some 100) "f1"

def exFifoS2 : Order := mkNewOrder "u6" "A" Side.SELL OrderType.LIMIT 4 (some 100) "f2"

def exFifoBook : OrderBook := resBook (resBook (emptyBook "A") exFifoS1) exFifoS2

def exFifoBuy : Order := mkNewOrder "u7" "A" Side.BUY OrderType.LIMIT 6 (some 100) "f3"

/-- Book used for the claim C3 counterexample: the resting bid canceled. -/
def exC3CancelBook : OrderBook := (exBidBook.cancel "o1").1

def exC3ReaddBook : OrderBook := addBook exC3CancelBook ((alGet exC3CancelBook.orders "o1").getD exBuy100)

/-- Example taker with a mismatched symbol (claim C4). -/
def exMsft : Order := mkNewOrder "u8" "MSFT" Side.BUY OrderType.LIMIT 3 (some 100) "m1"

/-- Example MARKET taker (claim C4). -/
def exMarket : Order := mkNewOrder "u9" "A" Side.BUY OrderType.MARKET 3 none "m2"

/-! ### Association list lemmas -/

theorem alGet_set_eq {α β : Type} [DecidableEq α] (l : List (α × β)) (k : α) (v : β) :
    alGet (alSet l k v) k = some v := by
  induction l with
  | nil => simp [alSet, alGet]
  | cons pr t ih =>
    obtain ⟨a, b⟩ := pr
    by_cases h : a = k
    · simp [alSet, h, alGet]
    · simp [alSet, h, alGet, ih]

theorem alGet_set_ne {α β : Type} [DecidableEq α] (l : List (α × β)) (k k2 : α) (v : β)
    (h : k2 ≠ k) : alGet (alSet l k v) k2 = alGet l k2 := by
  induction l with
  | nil => simp [alSet, alGet, Ne.symm h]
  | cons pr t ih =>
    obtain ⟨a, b⟩ := pr
    by_cases ha : a = k
    · subst ha
      simp [alSet, alGet, Ne.symm h]
    · simp [alSet, ha, alGet, ih]

theorem alGet_erase_ne {α β : Type} [DecidableEq α] (l : List (α × β)) (k k2 : α)
    (h : k2 ≠ k) : alGet (alErase l k) k2 = alGet l k2 := by
  induction l with
  | nil => simp [alErase]
  | cons pr t ih =>
    obtain ⟨a, b⟩ := pr
    by_cases ha : a = k
    · subst ha
      simp [alErase, alGet, Ne.symm h]
    · simp [alErase, ha, alGet, ih]

theorem alGet_mem {α β : Type} [DecidableEq α] {l : List (α × β)} {k : α} {v : β}
    (h : alGet l k = some v) : (k, v) ∈ l := by
  induction l with
  | nil => simp [alGet] at h
  | cons pr t ih =>
    obtain ⟨a, b⟩ := pr
    by_cases ha : a = k
    · subst ha
      simp [alGet] at h
      simp [h]
    · simp [alGet, ha] at h
      simp [ih h]

theorem alGet_mem_keys {α β : Type} [DecidableEq α] {l : List (α × β)} {k : α} {v : β}
    (h : alGet l k = some v) : k ∈ l.map Prod.fst :=
  List.mem_map.mpr ⟨(k, v), alGet_mem h, rfl⟩

theorem alGet_eq_none_of_not_mem {α β : Type} [DecidableEq α] {l : List (α × β)} {k : α}
    (h : k ∉ l.map Prod.fst) : alGet l k = none := by
  induction l with
  | nil => simp [alGet]
  | cons pr t ih =>
    obtain ⟨a, b⟩ := pr
    simp only [List.map_cons, List.mem_cons, not_or] at h
    have hak : ¬ a = k := fun h2 => h.1 h2.symm
    simp [alGet, hak, ih h.2]

theorem alGet_isSome_of_mem_keys {α β : Type} [DecidableEq α] {l : List (α × β)} {k : α}
    (h : k ∈ l.map Prod.fst) : (alGet l k).isSome = true := by
  induction l with
  | nil => simp at h
  | cons pr t ih =>
    obtain ⟨a, b⟩ := pr
    by_cases ha : a = k
    · simp [alGet, ha]
    · simp only [List.map_cons, List.mem_cons] at h
      rcases h with h | h
      · exact absurd h.symm ha
      · simp [alGet, ha, ih h]

theorem alGet_erase_eq {α β : Type} [DecidableEq α] (l : List (α × β)) (k : α)
    (hnd : (l.map Prod.fst).Nodup) : alGet (alErase l k) k = none := by
  induction l with
  | nil => simp [alErase, alGet]
  | cons pr t ih =>
    obtain ⟨a, b⟩ := pr
    simp only [List.map_cons, List.nodup_cons] at hnd
    by_cases ha : a = k
    · subst ha
      simp only [alErase, if_pos rfl]
      exact alGet_eq_none_of_not_mem hnd.1
    · simp [alErase, ha, alGet, ih hnd.2]

theorem alSet_of_alGet {α β : Type} [DecidableEq α] {l : List (α × β)} {k : α} {v : β}
    (h : alGet l k = some v) : alSet l k v = l := by
  induction l with
  | nil => simp [alGet] at h
  | cons pr t ih =>
    obtain ⟨a, b⟩ := pr
    by_cases ha : a = k
    · subst ha
      simp [alGet] at h
      simp [alSet, h]
    · simp [alGet, ha] at h
      simp [alSet, ha, ih h]

theorem mem_alSet {α β : Type} [DecidableEq α] {l : List (α × β)} {k : α} {v : β}
    {pr : α × β} (h : pr ∈ alSet l k v) : pr ∈ l ∨ pr = (k, v) := by
  induction l with
  | nil =>
    simp [alSet] at h
    simp [h]
  | cons hd t ih =>
    obtain ⟨a, b⟩ := hd
    by_cases ha : a = k
    · subst ha
      rw [show alSet ((a, b) :: t) a v = (a, v) :: t by simp [alSet], List.mem_cons] at h
      exact h.elim (fun h1 => Or.inr h1) (fun h1 => Or.inl (List.mem_cons_of_mem _ h1))
    · simp only [alSet, if_neg ha, List.mem_cons] at h
      refine h.elim (fun h1 => Or.inl (h1 ▸ List.mem_cons_self _ _)) (fun h1 => ?_)
      exact (ih h1).elim (fun h2 => Or.inl (List.mem_cons_of_mem _ h2)) (fun h2 => Or.inr h2)

theorem alErase_sublist {α β : Type} [DecidableEq α] (l : List (α × β)) (k : α) :
    List.Sublist (alErase l k) l := by
  induction l with
  | nil => simp [alErase]
  | cons pr t ih =>
    obtain ⟨a, b⟩ := pr
    by_cases ha : a = k
    · rw [show alErase ((a, b) :: t) k = t by simp [alErase, ha]]
      exact List.sublist_cons_self (a, b) t
    · simpa [alErase, ha] using ih.cons₂ (a, b)

theorem keys_alSet_of_mem {α β : Type} [DecidableEq α] {l : List (α × β)} {k : α} (v : β)
    (h : k ∈ l.map Prod.fst) : (alSet l k v).map Prod.fst = l.map Prod.fst := by
  induction l with
  | nil => simp at h
  | cons pr t ih =>
    obtain ⟨a, b⟩ := pr
    by_cases ha : a = k
    · simp [alSet, ha]
    · simp only [List.map_cons, List.mem_cons] at h
      rcases h with h | h
      · exact absurd h.symm ha
      · simp [alSet, ha, ih h]

theorem keys_alSet_of_not_mem {α β : Type} [DecidableEq α] {l : List (α × β)} {k : α} (v : β)
    (h : k ∉ l.map Prod.fst) : (alSet l k v).map Prod.fst = l.map Prod.fst ++ [k] := by
  induction l with
  | nil => simp [alSet]
  | cons pr t ih =>
    obtain ⟨a, b⟩ := pr
    simp only [List.map_cons, List.mem_cons, not_or] at h
    have hak : ¬ a = k := fun h2 => h.1 h2.symm
    simp [alSet, hak, ih h.2]

theorem keys_alErase_sublist {α β : Type} [DecidableEq α] (l : List (α × β)) (k : α) :
    List.Sublist ((alErase l k).map Prod.fst) (l.map Prod.fst) :=
  (alErase_sublist l k).map Prod.fst

theorem not_mem_keys_alErase {α β : Type} [DecidableEq α] {l : List (α × β)} {k : α}
    (hnd : (l.map Prod.fst).Nodup) : k ∉ (alErase l k).map Prod.fst := by
  intro hmem
  have := alGet_isSome_of_mem_keys hmem
  rw [alGet_erase_eq l k hnd] at this
  simp at this

/-! ### Sorted price list lemmas -/

theorem removeSorted_sublist (l : List Nat) (x : Nat) : List.Sublist (removeSorted l x) l := by
  induction l with
  | nil => simp [removeSorted]
  | cons a t ih =>
    by_cases h1 : a < x
    · simpa [removeSorted, h1] using ih.cons₂ a
    · by_cases h2 : a = x
      · rw [show removeSorted (a :: t) x = t by simp [removeSorted, h1, h2]]
        exact List.sublist_cons_self a t
      · simp [removeSorted, h1, h2]

theorem mem_removeSorted_of_ne {l : List Nat} {x y : Nat} (hy : y ∈ l) (hne : y ≠ x) :
    y ∈ removeSorted l x := by
  induction l with
  | nil => simp at hy
  | cons a t ih =>
    by_cases h1 : a < x
    · rcases List.mem_cons.mp hy with h | h
      · simp [removeSorted, h1, h]
      · simp [removeSorted, h1, ih h]
    · by_cases h2 : a = x
      · rcases List.mem_cons.mp hy with h | h
        · exact absurd (h.trans h2) hne
        · simp [removeSorted, h1, h2, h]
      · simpa [removeSorted, h1, h2] using hy

theorem not_mem_removeSorted {l : List Nat} (hs : List.Pairwise (· < ·) l) (x : Nat) :
    x ∉ removeSorted l x := by
  induction l with
  | nil => simp [removeSorted]
  | cons a t ih =>
    have hall := (List.pairwise_cons.mp hs).1
    have hs2 := (List.pairwise_cons.mp hs).2
    by_cases h1 : a < x
    · rw [show removeSorted (a :: t) x = a :: removeSorted t x by simp [removeSorted, h1]]
      rw [List.mem_cons, not_or]
      exact ⟨fun h => absurd h.symm (Nat.ne_of_lt h1), ih hs2⟩
    · by_cases h2 : a = x
      · subst h2
        rw [show removeSorted (a :: t) a = t by simp [removeSorted, h1]]
        intro hmem
        exact absurd rfl (Nat.ne_of_lt (hall a hmem))
      · have hxa : x < a := Nat.lt_of_le_of_ne (Nat.le_of_not_lt h1) (fun h => h2 h.symm)
        rw [show removeSorted (a :: t) x = a :: t by simp [removeSorted, h1, h2]]
        rw [List.mem_cons, not_or]
        exact ⟨fun h => h2 h.symm,
          fun hmem => absurd (Nat.lt_trans hxa (hall x hmem)) (lt_irrefl x)⟩

theorem length_removeSorted_of_mem {l : List Nat} (hs : List.Pairwise (· < ·) l) {x : Nat}
    (hx : x ∈ l) : (removeSorted l x).length + 1 = l.length := by
  induction l with
  | nil => simp at hx
  | cons a t ih =>
    have hall := (List.pairwise_cons.mp hs).1
    have hs2 := (List.pairwise_cons.mp hs).2
    by_cases h1 : a < x
    · have hxt : x ∈ t := by
        rcases List.mem_cons.mp hx with h | h
        · exact absurd h.symm (Nat.ne_of_lt h1)
        · exact h
      rw [show removeSorted (a :: t) x = a :: removeSorted t x by simp [removeSorted, h1]]
      simp only [List.length_cons]
      rw [← ih hs2 hxt]
    · by_cases h2 : a = x
      · rw [show removeSorted (a :: t) x = t by simp [removeSorted, h1, h2]]
        simp
      · exfalso
        have hxa : x < a := Nat.lt_of_le_of_ne (Nat.le_of_not_lt h1) (fun h => h2 h.symm)
        rcases List.mem_cons.mp hx with h | h
        · exact h2 h.symm
        · exact absurd (Nat.lt_trans hxa (hall x h)) (lt_irrefl x)

theorem pairwise_removeSorted {l : List Nat} (hs : List.Pairwise (· < ·) l) (x : Nat) :
    List.Pairwise (· < ·) (removeSorted l x) :=
  hs.sublist (removeSorted_sublist l x)

theorem mem_insortAsc {l : List Nat} {x y : Nat} :
    y ∈ insortAsc l x ↔ y = x ∨ y ∈ l := by
  induction l with
  | nil => simp [insortAsc]
  | cons a t ih =>
    by_cases h : x < a
    · simp only [insortAsc, if_pos h, List.mem_cons]
    · simp only [insortAsc, if_neg h, List.mem_cons, ih]
      tauto

theorem pairwise_insortAsc {l : List Nat} (hs : List.Pairwise (· < ·) l) {x : Nat}
    (hx : x ∉ l) : List.Pairwise (· < ·) (insortAsc l x) := by
  induction l with
  | nil => simp [insortAsc]
  | cons a t ih =>
    have hall := (List.pairwise_cons.mp hs).1
    have hs2 := (List.pairwise_cons.mp hs).2
    simp only [List.mem_cons, not_or] at hx
    by_cases h : x < a
    · rw [show insortAsc (a :: t) x = x :: a :: t by simp [insortAsc, h]]
      refine List.pairwise_cons.mpr ⟨?_, hs⟩
      intro y hy
      rcases List.mem_cons.mp hy with h2 | h2
      · exact h2 ▸ h
      · exact Nat.lt_trans h (hall y h2)
    · have hax : a < x := Nat.lt_of_le_of_ne (Nat.le_of_not_lt h) (fun h2 => hx.1 h2.symm)
      rw [show insortAsc (a :: t) x = a :: insortAsc t x by simp [insortAsc, h]]
      refine List.pairwise_cons.mpr ⟨?_, ih hs2 hx.2⟩
      intro y hy
      rcases mem_insortAsc.mp hy with h2 | h2
      · exact h2 ▸ hax
      · exact hall y h2

theorem sorted_head?_min {l : List Nat} (hs : List.Pairwise (· < ·) l) {p : Nat}
    (hh : l.head? = some p) : ∀ q ∈ l, p ≤ q := by
  cases l with
  | nil => simp at hh
  | cons a t =>
    simp only [List.head?_cons, Option.some.injEq] at hh
    subst hh
    intro q hq
    rcases List.mem_cons.mp hq with h | h
    · exact h ▸ le_refl q
    · exact Nat.le_of_lt ((List.pairwise_cons.mp hs).1 q h)

theorem mem_of_getLast? {l : List Nat} {p : Nat} (hh : l.getLast? = some p) : p ∈ l := by
  rcases List.mem_getLast?_eq_getLast (show p ∈ l.getLast? from hh) with ⟨hne, heq⟩
  exact heq ▸ List.getLast_mem hne

theorem mem_of_head? {l : List Nat} {p : Nat} (hh : l.head? = some p) : p ∈ l := by
  cases l with
  | nil => simp at hh
  | cons a t =>
    simp only [List.head?_cons, Option.some.injEq] at hh
    simp [hh.symm]

theorem sorted_getLast?_max {l : List Nat} (hs : List.Pairwise (· < ·) l) {p : Nat}
    (hh : l.getLast? = some p) : ∀ q ∈ l, q ≤ p := by
  induction l with
  | nil => simp at hh
  | cons a t ih =>
    cases t with
    | nil =>
      simp only [List.getLast?_singleton, Option.some.injEq] at hh
      intro q hq
      simp only [List.mem_singleton] at hq
      simp [hq, hh]
    | cons b t2 =>
      rw [List.getLast?_cons_cons] at hh
      have hall := (List.pairwise_cons.mp hs).1
      have hs2 := (List.pairwise_cons.mp hs).2
      intro q hq
      rcases List.mem_cons.mp hq with h | h
      · subst h
        have hp : p ∈ b :: t2 := mem_of_getLast? hh
        exact Nat.le_of_lt (hall p hp)
      · exact ih hs2 hh q h

/-! ### Book component lemmas -/

theorem levels_setLevels_same (b : OrderBook) (s : Side) (ls : List (Nat × List String)) :
    (b.setLevels s ls).levels s = ls := by
  cases s <;> rfl

theorem levels_setLevels_ne (b : OrderBook) {s s2 : Side} (ls : List (Nat × List String))
    (h : s2 ≠ s) : (b.setLevels s ls).levels s2 = b.levels s2 := by
  cases s <;> cases s2 <;> first | rfl | exact absurd rfl h

theorem prices_setLevels (b : OrderBook) (s s2 : Side) (ls : List (Nat × List String)) :
    (b.setLevels s ls).prices s2 = b.prices s2 := by
  cases s <;> cases s2 <;> rfl

theorem orders_setLevels (b : OrderBook) (s : Side) (ls : List (Nat × List String)) :
    (b.setLevels s ls).orders = b.orders := by
  cases s <;> rfl

theorem symbol_setLevels (b : OrderBook) (s : Side) (ls : List (Nat × List String)) :
    (b.setLevels s ls).symbol = b.symbol := by
  cases s <;> rfl

theorem prices_setPrices_same (b : OrderBook) (s : Side) (ps : List Nat) :
    (b.setPrices s ps).prices s = ps := by
  cases s <;> rfl

theorem prices_setPrices_ne (b : OrderBook) {s s2 : Side} (ps : List Nat) (h : s2 ≠ s) :
    (b.setPrices s ps).prices s2 = b.prices s2 := by
  cases s <;> cases s2 <;> first | rfl | exact absurd rfl h

theorem levels_setPrices (b : OrderBook) (s s2 : Side) (ps : List Nat) :
    (b.setPrices s ps).levels s2 = b.levels s2 := by
  cases s <;> cases s2 <;> rfl

theorem orders_setPrices (b : OrderBook) (s : Side) (ps : List Nat) :
    (b.setPrices s ps).orders = b.orders := by
  cases s <;> rfl

theorem symbol_setPrices (b : OrderBook) (s : Side) (ps : List Nat) :
    (b.setPrices s ps).symbol = b.symbol := by
  cases s <;> rfl

theorem setLevels_self (b : OrderBook) (s : Side) : b.setLevels s (b.levels s) = b := by
  cases s <;> rfl

/-! ### Cancel lemmas -/

theorem cancel_of_none {b : OrderBook} {oid : String} (h : alGet b.orders oid = none) :
    b.cancel oid = (b, false) := by
  simp [OrderBook.cancel, h]

theorem cancel_of_dead {b : OrderBook} {oid : String} {o : Order}
    (h : alGet b.orders oid = some o) (h2 : o.active = false ∨ o.remaining_qty = 0) :
    b.cancel oid = (b, false) := by
  simp [OrderBook.cancel, h, h2]

theorem cancel_of_live {b : OrderBook} {oid : String} {o : Order}
    (h : alGet b.orders oid = some o) (ha : o.active = true) (hr : 0 < o.remaining_qty) :
    b.cancel oid = (withOrders b (alSet b.orders oid (canceledUpd o)), true) := by
  have h2 : ¬ (o.active = false ∨ o.remaining_qty = 0) := by
    simp [ha, Nat.pos_iff_ne_zero.mp hr]
  simp [OrderBook.cancel, h, h2, withOrders, canceledUpd]

theorem cancel_true_elim {b : OrderBook} {oid : String} (h : (b.cancel oid).2 = true) :
    ∃ o, alGet b.orders oid = some o ∧ o.active = true ∧ 0 < o.remaining_qty := by
  cases hg : alGet b.orders oid with
  | none =>
    rw [cancel_of_none hg] at h
    simp at h
  | some o =>
    by_cases ha : o.active = true
    · by_cases hr : 0 < o.remaining_qty
      · exact ⟨o, rfl, ha, hr⟩
      · rw [cancel_of_dead hg (Or.inr (Nat.eq_zero_of_not_pos hr))] at h
        simp at h
    · have ha2 : o.active = false := by
        cases hab : o.active
        · rfl
        · exact absurd hab ha
      rw [cancel_of_dead hg (Or.inl ha2)] at h
      simp at h

/-! ### Queue scan lemmas -/

theorem live_iff {orders : List (String × Order)} {oid : String} :
    live orders oid = true ↔
      ∃ o, alGet orders oid = some o ∧ o.active = true ∧ 0 < o.remaining_qty := by
  unfold live
  cases h : alGet orders oid with
  | none => simp
  | some o => simp [Bool.and_eq_true]

theorem live_of_parts {orders : List (String × Order)} {oid : String} {o : Order}
    (h : alGet orders oid = some o) (ha : o.active = true) (hr : 0 < o.remaining_qty) :
    live orders oid = true :=
  live_iff.mpr ⟨o, h, ha, hr⟩

theorem not_live_iff {orders : List (String × Order)} {oid : String} :
    live orders oid = false ↔
      ¬ ∃ o, alGet orders oid = some o ∧ o.active = true ∧ 0 < o.remaining_qty := by
  rw [← live_iff]
  cases h : live orders oid <;> simp

theorem scanQueue_drop (orders : List (String × Order)) (q : List String) :
    ∃ pre, q = pre ++ (scanQueue orders q).1 ∧ ∀ x ∈ pre, live orders x = false := by
  induction q with
  | nil => exact ⟨[], rfl, by simp⟩
  | cons oid rest ih =>
    cases hg : alGet orders oid with
    | none =>
      have hstep : scanQueue orders (oid :: rest) = scanQueue orders rest := by
        simp [scanQueue, hg]
      rcases ih with ⟨pre, hpre, hdead⟩
      rw [hstep]
      refine ⟨oid :: pre, by rw [List.cons_append, ← hpre], ?_⟩
      intro x hx
      rcases List.mem_cons.mp hx with h | h
      · subst h
        simp [live, hg]
      · exact hdead x h
    | some o =>
      by_cases hc : o.active = true ∧ 0 < o.remaining_qty
      · have hstep : scanQueue orders (oid :: rest) = (oid :: rest, some (oid, o)) := by
          simp [scanQueue, hg, hc]
        rw [hstep]
        exact ⟨[], rfl, by simp⟩
      · have hstep : scanQueue orders (oid :: rest) = scanQueue orders rest := by
          simp [scanQueue, hg, hc]
        rcases ih with ⟨pre, hpre, hdead⟩
        rw [hstep]
        refine ⟨oid :: pre, by rw [List.cons_append, ← hpre], ?_⟩
        intro x hx
        rcases List.mem_cons.mp hx with h | h
        · subst h
          refine not_live_iff.mpr ?_
          rintro ⟨o2, hg2, ha2, hr2⟩
          rw [hg] at hg2
          exact hc (by cases hg2; exact ⟨ha2, hr2⟩)
        · exact hdead x h

theorem scanQueue_none {orders : List (String × Order)} {q q2 : List String}
    (h : scanQueue orders q = (q2, none)) :
    q2 = [] ∧ ∀ x ∈ q, live orders x = false := by
  induction q with
  | nil =>
    simp [scanQueue] at h
    exact ⟨h, by simp⟩
  | cons oid rest ih =>
    cases hg : alGet orders oid with
    | none =>
      rw [show scanQueue orders (oid :: rest) = scanQueue orders rest by simp [scanQueue, hg]] at h
      rcases ih h with ⟨h1, h2⟩
      refine ⟨h1, ?_⟩
      intro x hx
      rcases List.mem_cons.mp hx with hx | hx
      · subst hx
        simp [live, hg]
      · exact h2 x hx
    | some o =>
      by_cases hc : o.active = true ∧ 0 < o.remaining_qty
      · rw [show scanQueue orders (oid :: rest) = (oid :: rest, some (oid, o)) by
          simp [scanQueue, hg, hc]] at h
        simp at h
      · rw [show scanQueue orders (oid :: rest) = scanQueue orders rest by
          simp [scanQueue, hg, hc]] at h
        rcases ih h with ⟨h1, h2⟩
        refine ⟨h1, ?_⟩
        intro x hx
        rcases List.mem_cons.mp hx with hx | hx
        · subst hx
          refine not_live_iff.mpr ?_
          rintro ⟨o2, hg2, ha2, hr2⟩
          rw [hg] at hg2
          exact hc (by cases hg2; exact ⟨ha2, hr2⟩)
        · exact h2 x hx

theorem scanQueue_some {orders : List (String × Order)} {q q2 : List String}
    {oid : String} {o : Order} (h : scanQueue orders q = (q2, some (oid, o))) :
    alGet orders oid = some o ∧ o.active = true ∧ 0 < o.remaining_qty ∧
      ∃ pre rest, q = pre ++ oid :: rest ∧ q2 = oid :: rest ∧
        ∀ x ∈ pre, live orders x = false := by
  induction q with
  | nil => simp [scanQueue] at h
  | cons hd rest ih =>
    cases hg : alGet orders hd with
    | none =>
      rw [show scanQueue orders (hd :: rest) = scanQueue orders rest by simp [scanQueue, hg]] at h
      rcases ih h with ⟨hg2, ha2, hr2, pre, r2, hq, hq2, hdead⟩
      refine ⟨hg2, ha2, hr2, hd :: pre, r2, by rw [List.cons_append, ← hq], hq2, ?_⟩
      intro x hx
      rcases List.mem_cons.mp hx with hx | hx
      · subst hx
        simp [live, hg]
      · exact hdead x hx
    | some ohd =>
      by_cases hc : ohd.active = true ∧ 0 < ohd.remaining_qty
      · rw [show scanQueue orders (hd :: rest) = (hd :: rest, some (hd, ohd)) by
          simp [scanQueue, hg, hc]] at h
        have h1 := congrArg Prod.fst h
        have h2 := congrArg Prod.snd h
        simp only [Prod.fst] at h1
        simp only [Prod.snd, Option.some.injEq, Prod.mk.injEq] at h2
        obtain ⟨hoid, ho⟩ := h2
        subst hoid
        subst ho
        subst h1
        exact ⟨hg, hc.1, hc.2, [], rest, rfl, rfl, by simp⟩
      · rw [show scanQueue orders (hd :: rest) = scanQueue orders rest by
          simp [scanQueue, hg, hc]] at h
        rcases ih h with ⟨hg2, ha2, hr2, pre, r2, hq, hq2, hdead⟩
        refine ⟨hg2, ha2, hr2, hd :: pre, r2, by rw [List.cons_append, ← hq], hq2, ?_⟩
        intro x hx
        rcases List.mem_cons.mp hx with hx | hx
        · subst hx
          refine not_live_iff.mpr ?_
          rintro ⟨o2, hgx, ha3, hr3⟩
          rw [hg] at hgx
          exact hc (by cases hgx; exact ⟨ha3, hr3⟩)
        · exact hdead x hx

theorem scanQueue_isSome_of_live {orders : List (String × Order)} {q : List String}
    {oid : String} (hm : oid ∈ q) (hl : live orders oid = true) :
    (scanQueue orders q).2.isSome = true := by
  induction q with
  | nil => simp at hm
  | cons hd rest ih =>
    cases hg : alGet orders hd with
    | none =>
      rw [show scanQueue orders (hd :: rest) = scanQueue orders rest by simp [scanQueue, hg]]
      rcases List.mem_cons.mp hm with hx | hx
      · subst hx
        rw [show live orders oid = false by simp [live, hg]] at hl
        simp at hl
      · exact ih hx
    | some ohd =>
      by_cases hc : ohd.active = true ∧ 0 < ohd.remaining_qty
      · rw [show scanQueue orders (hd :: rest) = (hd :: rest, some (hd, ohd)) by
          simp [scanQueue, hg, hc]]
        simp
      · rw [show scanQueue orders (hd :: rest) = scanQueue orders rest by
          simp [scanQueue, hg, hc]]
        rcases List.mem_cons.mp hm with hx | hx
        · subst hx
          rcases live_iff.mp hl with ⟨o2, hg2, ha2, hr2⟩
          rw [hg] at hg2
          exact absurd (by cases hg2; exact ⟨ha2, hr2⟩) hc
        · exact ih hx

/-! ### Lemmas about the per-level pop -/

theorem WfSide_transfer {b b2 : OrderBook} {s : Side} (h : WfSide b s)
    (hl : b2.levels s = b.levels s) (hp : b2.prices s = b.prices s)
    (ho : b2.orders = b.orders) : WfSide b2 s := by
  unfold WfSide at h ⊢
  rw [hl, hp, ho]
  exact h

theorem alGet_some_mem_prices {b : OrderBook} {s : Side} {p : Nat} {q : List String}
    (hw : WfSide b s) (h : alGet (b.levels s) p = some q) : p ∈ b.prices s :=
  hw.2.2.1 (p, q) (alGet_mem h)

theorem queue_of_mem_prices {b : OrderBook} {s : Side} {p : Nat} (hw : WfSide b s)
    (hp : p ∈ b.prices s) :
    ∃ q, alGet (b.levels s) p = some q ∧ q ≠ [] ∧ q.Nodup ∧
      ∀ oid ∈ q, ordAt b.orders oid s p = true := by
  have h1 := hw.2.1 p hp
  cases hq : alGet (b.levels s) p with
  | none => rw [hq] at h1; simp at h1
  | some q =>
    have h2 := hw.2.2.2.1 (p, q) (alGet_mem hq)
    exact ⟨q, rfl, h2.1, h2.2.1, h2.2.2⟩

/-- Full description of a successful pop: the found reference is the first
eligible entry of the queue at `p`; the skipped prefix is discarded; no other
level, no price list, the order map and the symbol change. -/
theorem pop_some_struct {b : OrderBook} {s : Side} {p : Nat} {b2 : OrderBook}
    {oid : String} {o : Order}
    (h : popNextActiveAtPrice b s p = (b2, some (oid, o))) :
    alGet b.orders oid = some o ∧ o.active = true ∧ 0 < o.remaining_qty ∧
    b2.orders = b.orders ∧ b2.symbol = b.symbol ∧
    (∀ s2, s2 ≠ s → b2.levels s2 = b.levels s2) ∧
    (∀ s2, b2.prices s2 = b.prices s2) ∧
    ∃ pre rest, alGet (b.levels s) p = some (pre ++ oid :: rest) ∧
      (∀ x ∈ pre, live b.orders x = false) ∧
      alGet (b2.levels s) p = some (oid :: rest) ∧
      (∀ p2, p2 ≠ p → alGet (b2.levels s) p2 = alGet (b.levels s) p2) ∧
      b2.levels s = alSet (b.levels s) p (oid :: rest) := by
  unfold popNextActiveAtPrice at h
  split at h
  next hl => simp at h
  next q hl =>
    split at h
    next hq => simp at h
    next hq =>
      split at h
      next q2 om hscan =>
        rw [Prod.mk.injEq, Option.some.injEq] at h
        obtain ⟨hb2, hom⟩ := h
        subst hom
        subst hb2
        rcases scanQueue_some hscan with ⟨hg, ha, hr, pre, rest, hqeq, hq2, hdead⟩
        subst hqeq
        subst hq2
        refine ⟨hg, ha, hr, ?_, ?_, ?_, ?_, pre, rest, hl, hdead, ?_, ?_, ?_⟩
        · exact orders_setLevels _ _ _
        · exact symbol_setLevels _ _ _
        · intro s2 hs2
          exact levels_setLevels_ne _ _ hs2
        · intro s2
          exact prices_setLevels _ _ _ _
        · rw [show (setLevelQueue b s p (oid :: rest)).levels s =
              alSet (b.levels s) p (oid :: rest) from levels_setLevels_same _ _ _]
          exact alGet_set_eq _ _ _
        · intro p2 hp2
          rw [show (setLevelQueue b s p (oid :: rest)).levels s =
              alSet (b.levels s) p (oid :: rest) from levels_setLevels_same _ _ _]
          exact alGet_set_ne _ _ _ _ hp2
        · exact levels_setLevels_same _ _ _
      next q2 hscan => simp at h

/-- Full description of a failed pop at a listed price on a well-formed side:
the queue held no eligible entry, the level is deleted and the price removed
from the sorted list; nothing else changes. -/
theorem pop_none_wf {b : OrderBook} {s : Side} {p : Nat} {b2 : OrderBook}
    (hw : WfSide b s) (hp : p ∈ b.prices s)
    (h : popNextActiveAtPrice b s p = (b2, none)) :
    b2.orders = b.orders ∧ b2.symbol = b.symbol ∧
    (∀ s2, s2 ≠ s → b2.levels s2 = b.levels s2 ∧ b2.prices s2 = b.prices s2) ∧
    b2.prices s = removeSorted (b.prices s) p ∧
    alGet (b2.levels s) p = none ∧
    (∀ p2, p2 ≠ p → alGet (b2.levels s) p2 = alGet (b.levels s) p2) ∧
    (∀ x ∈ queueOf b s p, live b.orders x = false) := by
  rcases queue_of_mem_prices hw hp with ⟨q, hl, hqne, _, _⟩
  unfold popNextActiveAtPrice at h
  split at h
  next hl2 => rw [hl2] at hl; simp at hl
  next q3 hl2 =>
    rw [hl2] at hl
    rw [Option.some.injEq] at hl
    subst hl
    split at h
    next hq => exact absurd hq hqne
    next hq =>
      split at h
      next q2 om hscan => simp at h
      next q2 hscan =>
        have h1 := congrArg Prod.fst h
        simp only [Prod.fst] at h1
        rcases scanQueue_none hscan with ⟨hq2, hdead⟩
        subst hq2
        have hkeys : ((alSet (b.levels s) p []).map Prod.fst).Nodup := by
          rw [keys_alSet_of_mem _ (alGet_mem_keys hl2)]
          exact hw.2.2.2.2
        have hclean : cleanupLevelIfEmpty (setLevelQueue b s p []) s p =
            ((setLevelQueue b s p []).setLevels s
              (alErase ((setLevelQueue b s p []).levels s) p)).setPrices s
              (removeSorted ((setLevelQueue b s p []).prices s) p) := by
          unfold cleanupLevelIfEmpty
          rw [show alGet ((setLevelQueue b s p []).levels s) p = some [] by
            unfold setLevelQueue
            rw [levels_setLevels_same]
            exact alGet_set_eq _ _ _]
        rw [hclean] at h1
        subst h1
        unfold setLevelQueue
        refine ⟨?_, ?_, ?_, ?_, ?_, ?_, ?_⟩
        · simp [orders_setPrices, orders_setLevels]
        · simp [symbol_setPrices, symbol_setLevels]
        · intro s2 hs2
          constructor
          · simp [levels_setPrices, levels_setLevels_ne _ _ hs2]
          · simp [prices_setPrices_ne _ _ hs2, prices_setLevels]
        · simp [prices_setPrices_same, prices_setLevels]
        · simp only [levels_setPrices, levels_setLevels_same]
          exact alGet_erase_eq _ _ hkeys
        · intro p2 hp2
          simp only [levels_setPrices, levels_setLevels_same]
          rw [alGet_erase_ne _ _ _ hp2, alGet_set_ne _ _ _ _ hp2]
        · intro x hx
          unfold queueOf at hx
          rw [hl2] at hx
          exact hdead x (by simpa using hx)

/-- A pop never changes the order map or the symbol. -/
theorem pop_orders {b : OrderBook} {s : Side} {p : Nat} :
    (popNextActiveAtPrice b s p).1.orders = b.orders ∧
    (popNextActiveAtPrice b s p).1.symbol = b.symbol := by
  unfold popNextActiveAtPrice
  split
  next hl => exact ⟨rfl, rfl⟩
  next q hl =>
    split
    next hq => exact ⟨rfl, rfl⟩
    next hq =>
      split
      next q2 om hscan =>
        unfold setLevelQueue
        rw [orders_setLevels, symbol_setLevels]
        exact ⟨rfl, rfl⟩
      next q2 hscan =>
        unfold cleanupLevelIfEmpty
        split
        next hc =>
          unfold setLevelQueue
          rw [orders_setPrices, orders_setLevels, orders_setLevels,
            symbol_setPrices, symbol_setLevels, symbol_setLevels]
          exact ⟨rfl, rfl⟩
        next hc =>
          unfold setLevelQueue
          rw [orders_setLevels, symbol_setLevels]
          exact ⟨rfl, rfl⟩

/-- Caseless description of a failed pop: either the book is untouched (level
missing or queue empty), or the queue was entirely ineligible, the level got
deleted and the price removed. -/
theorem pop_none_struct {b : OrderBook} {s : Side} {p : Nat} {b2 : OrderBook}
    (h : popNextActiveAtPrice b s p = (b2, none)) :
    (b2 = b ∧ (alGet (b.levels s) p = none ∨ alGet (b.levels s) p = some [])) ∨
    (∃ q, alGet (b.levels s) p = some q ∧ q ≠ [] ∧ (∀ x ∈ q, live b.orders x = false) ∧
      b2.orders = b.orders ∧ b2.symbol = b.symbol ∧
      (∀ s2, s2 ≠ s → b2.levels s2 = b.levels s2 ∧ b2.prices s2 = b.prices s2) ∧
      b2.levels s = alErase (alSet (b.levels s) p []) p ∧
      b2.prices s = removeSorted (b.prices s) p) := by
  unfold popNextActiveAtPrice at h
  split at h
  next hl =>
    rw [Prod.mk.injEq] at h
    exact Or.inl ⟨h.1.symm, Or.inl hl⟩
  next q hl =>
    split at h
    next hq =>
      rw [Prod.mk.injEq] at h
      subst hq
      exact Or.inl ⟨h.1.symm, Or.inr hl⟩
    next hq =>
      split at h
      next q2 om hscan => simp at h
      next q2 hscan =>
        have h1 := congrArg Prod.fst h
        simp only [Prod.fst] at h1
        rcases scanQueue_none hscan with ⟨hq2, hdead⟩
        subst hq2
        have hclean : cleanupLevelIfEmpty (setLevelQueue b s p []) s p =
            ((setLevelQueue b s p []).setLevels s
              (alErase ((setLevelQueue b s p []).levels s) p)).setPrices s
              (removeSorted ((setLevelQueue b s p []).prices s) p) := by
          unfold cleanupLevelIfEmpty
          rw [show alGet ((setLevelQueue b s p []).levels s) p = some [] by
            unfold setLevelQueue
            rw [levels_setLevels_same]
            exact alGet_set_eq _ _ _]
        rw [hclean] at h1
        subst h1
        unfold setLevelQueue
        refine Or.inr ⟨q, hl, hq, hdead, ?_, ?_, ?_, ?_, ?_⟩
        · simp [orders_setPrices, orders_setLevels]
        · simp [symbol_setPrices, symbol_setLevels]
        · intro s2 hs2
          constructor
          · simp [levels_setPrices, levels_setLevels_ne _ _ hs2]
          · simp [prices_setPrices_ne _ _ hs2, prices_setLevels]
        · simp [levels_setPrices, levels_setLevels_same]
        · simp [prices_setPrices_same, prices_setLevels]

theorem KC_transfer {b b2 : OrderBook} (h : KeysConsistent b) (ho : b2.orders = b.orders) :
    KeysConsistent b2 := by
  unfold KeysConsistent at h ⊢
  rw [ho]
  exact h

theorem StatusInv_transfer {b b2 : OrderBook} (h : StatusInv b) (ho : b2.orders = b.orders) :
    StatusInv b2 := by
  unfold StatusInv at h ⊢
  rw [ho]
  exact h

/-- A pop preserves well-formedness of the side it works on. -/
theorem pop_wfside {b : OrderBook} {s : Side} {p : Nat} {b2 : OrderBook}
    {r : Option (String × Order)} (hw : WfSide b s)
    (h : popNextActiveAtPrice b s p = (b2, r)) : WfSide b2 s := by
  cases r with
  | some om =>
    obtain ⟨oid, o⟩ := om
    rcases pop_some_struct h with
      ⟨hg, ha, hr, ho, hsym, hlv, hpr, pre, rest, hl, hdead, hl2, hln, hleq⟩
    have hpmem : p ∈ b.prices s := alGet_some_mem_prices hw hl
    obtain ⟨hsort, hsync1, hsync2, hque, hnd⟩ := hw
    refine ⟨?_, ?_, ?_, ?_, ?_⟩
    · rw [hpr]
      exact hsort
    · intro p3 hp3
      rw [hpr] at hp3
      by_cases hp3p : p3 = p
      · subst hp3p
        rw [hl2]
        rfl
      · rw [hln p3 hp3p]
        exact hsync1 p3 hp3
    · intro pr hpr2
      rw [hleq] at hpr2
      rw [hpr]
      rcases mem_alSet hpr2 with h2 | h2
      · exact hsync2 pr h2
      · rw [h2]
        exact hpmem
    · intro pr hpr2
      rw [hleq] at hpr2
      rcases mem_alSet hpr2 with h2 | h2
      · have h3 := hque pr h2
        refine ⟨h3.1, h3.2.1, ?_⟩
        intro oid2 ho2
        rw [ho]
        exact h3.2.2 oid2 ho2
      · subst h2
        have h3 := hque (p, pre ++ oid :: rest) (alGet_mem hl)
        refine ⟨by simp, ?_, ?_⟩
        · exact h3.2.1.sublist (List.sublist_append_right pre (oid :: rest))
        · intro oid2 ho2
          rw [ho]
          exact h3.2.2 oid2 (by
            simp only [List.mem_append]
            exact Or.inr ho2)
    · rw [hleq, keys_alSet_of_mem _ (alGet_mem_keys hl)]
      exact hnd
  | none =>
    rcases pop_none_struct h with ⟨hb, _⟩ | ⟨q, hl, hqne, hdead, ho, hsym, hlv, hleq, hpeq⟩
    · rw [hb]
      exact hw
    · obtain ⟨hsort, hsync1, hsync2, hque, hnd⟩ := hw
      have hpmem : p ∈ b.prices s := alGet_some_mem_prices ⟨hsort, hsync1, hsync2, hque, hnd⟩ hl
      have hkeys : ((alSet (b.levels s) p []).map Prod.fst).Nodup := by
        rw [keys_alSet_of_mem _ (alGet_mem_keys hl)]
        exact hnd
      refine ⟨?_, ?_, ?_, ?_, ?_⟩
      · rw [hpeq]
        exact pairwise_removeSorted hsort p
      · intro p3 hp3
        rw [hpeq] at hp3
        have hp3p : p3 ≠ p := by
          intro hcon
          subst hcon
          exact not_mem_removeSorted hsort p3 hp3
        rw [hleq, alGet_erase_ne _ _ _ hp3p, alGet_set_ne _ _ _ _ hp3p]
        exact hsync1 p3 ((removeSorted_sublist _ _).mem hp3)
      · intro pr hpr2
        rw [hleq] at hpr2
        have hprp : pr.1 ≠ p := by
          intro hcon
          apply @not_mem_keys_alErase ℕ (List String) _ (alSet (b.levels s) p []) p hkeys
          exact List.mem_map.mpr ⟨pr, hpr2, hcon⟩
        have hpr3 : pr ∈ alSet (b.levels s) p [] := ((alErase_sublist _ _).mem hpr2)
        rcases mem_alSet hpr3 with h2 | h2
        · rw [hpeq]
          exact mem_removeSorted_of_ne (hsync2 pr h2) hprp
        · exact absurd (congrArg Prod.fst h2) hprp
      · intro pr hpr2
        rw [hleq] at hpr2
        have hprp : pr.1 ≠ p := by
          intro hcon
          apply @not_mem_keys_alErase ℕ (List String) _ (alSet (b.levels s) p []) p hkeys
          exact List.mem_map.mpr ⟨pr, hpr2, hcon⟩
        have hpr3 : pr ∈ alSet (b.levels s) p [] := ((alErase_sublist _ _).mem hpr2)
        rcases mem_alSet hpr3 with h2 | h2
        · have h3 := hque pr h2
          refine ⟨h3.1, h3.2.1, ?_⟩
          intro oid2 ho2
          rw [ho]
          exact h3.2.2 oid2 ho2
        · exact absurd (congrArg Prod.fst h2) hprp
      · rw [hleq]
        exact hkeys.sublist (keys_alErase_sublist _ _)

/-- A pop preserves full well-formedness of the book. -/
theorem pop_wf {b : OrderBook} {s : Side} {p : Nat} {b2 : OrderBook}
    {r : Option (String × Order)} (hw : Wf b)
    (h : popNextActiveAtPrice b s p = (b2, r)) : Wf b2 := by
  have hside : WfSide b2 s := pop_wfside (by cases s <;> [exact hw.1; exact hw.2.1]) h
  have hords : b2.orders = b.orders := by
    rw [show b2 = (popNextActiveAtPrice b s p).1 by rw [h]]
    exact pop_orders.1
  have hother : ∀ s2, s2 ≠ s → WfSide b2 s2 := by
    intro s2 hs2
    cases r with
    | some om =>
      obtain ⟨oid, o⟩ := om
      rcases pop_some_struct h with ⟨_, _, _, ho, _, hlv, hpr, _⟩
      exact WfSide_transfer (by cases s2 <;> [exact hw.1; exact hw.2.1]) (hlv s2 hs2) (hpr s2) ho
    | none =>
      rcases pop_none_struct h with ⟨hb, _⟩ | ⟨q, _, _, _, ho, _, hlv, _, _⟩
      · rw [hb]
        exact (by cases s2 <;> [exact hw.1; exact hw.2.1])
      · exact WfSide_transfer (by cases s2 <;> [exact hw.1; exact hw.2.1])
          (hlv s2 hs2).1 (hlv s2 hs2).2 ho
  have hkc : KeysConsistent b2 := KC_transfer hw.2.2 hords
  refine ⟨?_, ?_, hkc⟩
  · by_cases hs : Side.BUY = s
    · rw [hs]
      exact hside
    · exact hother Side.BUY hs
  · by_cases hs : Side.SELL = s
    · rw [hs]
      exact hside
    · exact hother Side.SELL hs

/-- The identity evolution. -/
theorem sideEvolve_refl (b : OrderBook) (s : Side) : sideEvolve b b s := by
  refine ⟨?_, ?_, List.Sublist.refl _, ?_⟩
  · intro p2 q hq
    exact Or.inr ⟨[], q, hq, rfl, by simp⟩
  · intro p2 h
    exact h
  · intro p2 q hq hp hnp
    exact absurd hp hnp

/-- Evolutions compose, given that the first step keeps the order map and the
intermediate book is well-formed on the evolving side. -/
theorem sideEvolve_trans {b b2 b3 : OrderBook} {s : Side}
    (h1 : sideEvolve b b2 s) (h2 : sideEvolve b2 b3 s)
    (ho : b2.orders = b.orders) : sideEvolve b b3 s := by
  obtain ⟨e1, n1, s1, d1⟩ := h1
  obtain ⟨e2, n2, s2, d2⟩ := h2
  refine ⟨?_, ?_, s2.trans s1, ?_⟩
  · intro p2 q hq
    rcases e1 p2 q hq with hdead | ⟨pre, q2, hq2, hqeq, hpre⟩
    · exact Or.inl hdead
    · rcases e2 p2 q2 hq2 with hdead2 | ⟨pre2, q3, hq3, hq2eq, hpre2⟩
      · refine Or.inl ?_
        intro x hx
        rw [hqeq] at hx
        rcases List.mem_append.mp hx with hx | hx
        · exact hpre x hx
        · have := hdead2 x hx
          rw [ho] at this
          exact this
      · refine Or.inr ⟨pre ++ pre2, q3, hq3, ?_, ?_⟩
        · rw [hqeq, hq2eq, List.append_assoc]
        · intro x hx
          rcases List.mem_append.mp hx with hx | hx
          · exact hpre x hx
          · have := hpre2 x hx
            rw [ho] at this
            exact this
  · intro p2 h
    exact n2 p2 (n1 p2 h)
  · intro p2 q hq hp hnp
    rcases e1 p2 q hq with hdead | ⟨pre, q2, hq2, hqeq, hpre⟩
    · exact hdead
    · by_cases hp2 : p2 ∈ b2.prices s
      · have hq2dead := d2 p2 q2 hq2 hp2 hnp
        intro x hx
        rw [hqeq] at hx
        rcases List.mem_append.mp hx with hx | hx
        · exact hpre x hx
        · have := hq2dead x hx
          rw [ho] at this
          exact this
      · exact d1 p2 q hq hp hp2

theorem pop_orders_eq {b : OrderBook} {s : Side} {p : Nat} {b2 : OrderBook}
    {r : Option (String × Order)} (h : popNextActiveAtPrice b s p = (b2, r)) :
    b2.orders = b.orders ∧ b2.symbol = b.symbol := by
  rw [show b2 = (popNextActiveAtPrice b s p).1 by rw [h]]
  exact pop_orders

theorem pop_other_side {b : OrderBook} {s : Side} {p : Nat} {b2 : OrderBook}
    {r : Option (String × Order)} (h : popNextActiveAtPrice b s p = (b2, r)) :
    ∀ s2, s2 ≠ s → b2.levels s2 = b.levels s2 ∧ b2.prices s2 = b.prices s2 := by
  intro s2 hs2
  cases r with
  | some om =>
    obtain ⟨oid, o⟩ := om
    rcases pop_some_struct h with ⟨_, _, _, _, _, hlv, hpr, _⟩
    exact ⟨hlv s2 hs2, hpr s2⟩
  | none =>
    rcases pop_none_struct h with ⟨hb, _⟩ | ⟨q, _, _, _, _, _, hlv, _, _⟩
    · rw [hb]
      exact ⟨rfl, rfl⟩
    · exact hlv s2 hs2

/-- One pop is a lazy-deletion evolution of the side it works on. -/
theorem pop_sideEvolve {b : OrderBook} {s : Side} {p : Nat} {b2 : OrderBook}
    {r : Option (String × Order)} (h : popNextActiveAtPrice b s p = (b2, r)) :
    sideEvolve b b2 s := by
  cases r with
  | some om =>
    obtain ⟨oid, o⟩ := om
    rcases pop_some_struct h with
      ⟨hg, ha, hr, ho, hsym, hlv, hpr, pre, rest, hl, hdead, hl2, hln, hleq⟩
    refine ⟨?_, ?_, ?_, ?_⟩
    · intro p2 q hq
      by_cases hp2 : p2 = p
      · subst hp2
        rw [hq] at hl
        rw [Option.some.injEq] at hl
        exact Or.inr ⟨pre, oid :: rest, hl2, hl, hdead⟩
      · exact Or.inr ⟨[], q, by rw [hln p2 hp2]; exact hq, rfl, by simp⟩
    · intro p2 hn
      have hp2 : p2 ≠ p := by
        intro hcon
        subst hcon
        rw [hn] at hl
        simp at hl
      rw [hln p2 hp2]
      exact hn
    · rw [hpr s]
    · intro p2 q hq hp hnp
      rw [hpr s] at hnp
      exact absurd hp hnp
  | none =>
    rcases pop_none_struct h with ⟨hb, _⟩ | ⟨q, hl, hqne, hdead, ho, hsym, hlv, hleq, hpeq⟩
    · rw [hb]
      exact sideEvolve_refl b s
    · refine ⟨?_, ?_, ?_, ?_⟩
      · intro p2 q2 hq2
        by_cases hp2 : p2 = p
        · subst hp2
          rw [hq2] at hl
          rw [Option.some.injEq] at hl
          subst hl
          exact Or.inl hdead
        · refine Or.inr ⟨[], q2, ?_, rfl, by simp⟩
          rw [hleq, alGet_erase_ne _ _ _ hp2, alGet_set_ne _ _ _ _ hp2]
          exact hq2
      · intro p2 hn
        have hp2 : p2 ≠ p := by
          intro hcon
          subst hcon
          rw [hn] at hl
          simp at hl
        rw [hleq, alGet_erase_ne _ _ _ hp2, alGet_set_ne _ _ _ _ hp2]
        exact hn
      · rw [hpeq]
        exact removeSorted_sublist _ _
      · intro p2 q2 hq2 hp hnp
        by_cases hp2 : p2 = p
        · subst hp2
          rw [hq2] at hl
          rw [Option.some.injEq] at hl
          subst hl
          exact hdead
        · rw [hpeq] at hnp
          exact absurd (mem_removeSorted_of_ne hp hp2) hnp

/-- Induction package for the lazy best-price lookup: it never touches the
order map, the symbol or the other side, its effect on the scanned side is a
lazy-deletion evolution, and it preserves well-formedness. -/
theorem gbrAux_package (s : Side) (f : Nat) : ∀ b : OrderBook,
    (gbrAux s f b).1.orders = b.orders ∧
    (gbrAux s f b).1.symbol = b.symbol ∧
    sideEvolve b (gbrAux s f b).1 s ∧
    (∀ s2, s2 ≠ s →
      (gbrAux s f b).1.levels s2 = b.levels s2 ∧ (gbrAux s f b).1.prices s2 = b.prices s2) ∧
    (Wf b → Wf (gbrAux s f b).1) := by
  induction f with
  | zero =>
    intro b
    exact ⟨rfl, rfl, sideEvolve_refl b s, fun s2 _ => ⟨rfl, rfl⟩, id⟩
  | succ f ih =>
    intro b
    cases hbp : b.bestPrice s with
    | none =>
      have hstep : gbrAux s (f + 1) b = (b, none) := by simp [gbrAux, hbp]
      rw [hstep]
      exact ⟨rfl, rfl, sideEvolve_refl b s, fun s2 _ => ⟨rfl, rfl⟩, id⟩
    | some p =>
      cases hpop : popNextActiveAtPrice b s p with
      | mk b1 r =>
        cases r with
        | some om =>
          have hstep : gbrAux s (f + 1) b = (b1, some om) := by simp [gbrAux, hbp, hpop]
          rw [hstep]
          exact ⟨(pop_orders_eq hpop).1, (pop_orders_eq hpop).2, pop_sideEvolve hpop,
            pop_other_side hpop, fun hw => pop_wf hw hpop⟩
        | none =>
          have hstep : gbrAux s (f + 1) b = gbrAux s f b1 := by simp [gbrAux, hbp, hpop]
          rw [hstep]
          rcases ih b1 with ⟨iho, ihsym, ihev, ihlv, ihwf⟩
          have hbo := pop_orders_eq hpop
          refine ⟨iho.trans hbo.1, ihsym.trans hbo.2,
            sideEvolve_trans (pop_sideEvolve hpop) ihev hbo.1, ?_, ?_⟩
          · intro s2 hs2
            exact ⟨(ihlv s2 hs2).1.trans (pop_other_side hpop s2 hs2).1,
              (ihlv s2 hs2).2.trans (pop_other_side hpop s2 hs2).2⟩
          · intro hw
            exact ihwf (pop_wf hw hpop)

/-- A found best resting order is eligible: stored in the map, active, with
positive remaining quantity. -/
theorem gbrAux_some_elig (s : Side) (f : Nat) : ∀ {b b2 : OrderBook} {oid : String} {o : Order},
    gbrAux s f b = (b2, some (oid, o)) →
    alGet b.orders oid = some o ∧ o.active = true ∧ 0 < o.remaining_qty := by
  induction f with
  | zero =>
    intro b b2 oid o h
    simp [gbrAux] at h
  | succ f ih =>
    intro b b2 oid o h
    cases hbp : b.bestPrice s with
    | none =>
      rw [show gbrAux s (f + 1) b = (b, none) by simp [gbrAux, hbp]] at h
      simp at h
    | some p =>
      cases hpop : popNextActiveAtPrice b s p with
      | mk b1 r =>
        cases r with
        | some om =>
          rw [show gbrAux s (f + 1) b = (b1, some om) by simp [gbrAux, hbp, hpop]] at h
          rw [Prod.mk.injEq, Option.some.injEq] at h
          rw [h.2] at hpop
          rcases pop_some_struct hpop with ⟨hg, ha, hr, _⟩
          exact ⟨hg, ha, hr⟩
        | none =>
          rw [show gbrAux s (f + 1) b = gbrAux s f b1 by simp [gbrAux, hbp, hpop]] at h
          have hbo := pop_orders_eq hpop
          have := ih h
          rw [hbo.1] at this
          exact this

theorem gbr_some_elig {b b2 : OrderBook} {s : Side} {oid : String} {o : Order}
    (h : get_best_resting b s = (b2, some (oid, o))) :
    alGet b.orders oid = some o ∧ o.active = true ∧ 0 < o.remaining_qty :=
  gbrAux_some_elig s _ h

theorem wfSide_of_wf {b : OrderBook} (hw : Wf b) (s : Side) : WfSide b s := by
  cases s
  · exact hw.1
  · exact hw.2.1

theorem bestPrice_mem {b : OrderBook} {s : Side} {p : Nat} (h : b.bestPrice s = some p) :
    p ∈ b.prices s := by
  cases s
  · exact mem_of_getLast? h
  · exact mem_of_head? h

theorem bestPrice_none_iff {b : OrderBook} {s : Side} :
    b.bestPrice s = none ↔ b.prices s = [] := by
  cases s
  · exact List.getLast?_eq_none_iff
  · exact List.head?_eq_none_iff

/-- The best price of a side admits no strictly better listed price. -/
theorem bestPrice_best {b : OrderBook} {s : Side} {p : Nat}
    (hs : List.Pairwise (· < ·) (b.prices s)) (h : b.bestPrice s = some p) :
    ∀ q ∈ b.prices s, ¬ betterPrice s q p := by
  intro q hq
  cases s
  · have := sorted_getLast?_max hs h q hq
    unfold betterPrice
    omega
  · have := sorted_head?_min hs h q hq
    unfold betterPrice
    omega

/-- The pop at the best price shrinks the price list by one when it finds no
eligible order (claim C9, lookup part). -/
theorem pop_none_shrinks {b : OrderBook} {s : Side} {p : Nat} {b2 : OrderBook}
    (hw : WfSide b s) (hbp : b.bestPrice s = some p)
    (h : popNextActiveAtPrice b s p = (b2, none)) :
    (b2.prices s).length < (b.prices s).length := by
  have hp := bestPrice_mem hbp
  rcases pop_none_wf hw hp h with ⟨_, _, _, hpeq, _⟩
  rw [hpeq]
  have := length_removeSorted_of_mem hw.1 hp
  omega

/-- Claim C9: both loops of the matching path have a strictly decreasing
well-founded measure.  Each retry of the best-price lookup happens exactly
when the pop at the current best price found nothing, and on a well-formed
book that pop removes one price level, so the number of listed prices strictly
decreases; and each productive iteration of the match loop matches an
eligible maker with positive remaining quantity, so the taker remaining
quantity strictly decreases by at least one. -/
theorem claim_C9 :
    (∀ (b : OrderBook) (s : Side) (p : Nat) (b2 : OrderBook),
      Wf b → b.bestPrice s = some p → popNextActiveAtPrice b s p = (b2, none) →
      (b2.prices s).length < (b.prices s).length) ∧
    (∀ (b b2 : OrderBook) (taker : Order) (oid : String) (m : Order),
      0 < taker.remaining_qty →
      get_best_resting b (oppSide taker.side) = (b2, some (oid, m)) →
      taker.remaining_qty - min taker.remaining_qty m.remaining_qty <
        taker.remaining_qty) := by
  constructor
  · intro b s p b2 hw hbp h
    exact pop_none_shrinks (wfSide_of_wf hw s) hbp h
  · intro b b2 taker oid m hrem h
    have hel := gbr_some_elig h
    exact Nat.sub_lt hrem (lt_min_iff.mpr ⟨hrem, hel.2.2⟩)

/-- Witness for claim C9: the stale ask level 100 of the example book is
dropped by one failed pop, and a found maker strictly decreases the taker
remaining quantity. -/
theorem claim_C9_witness :
    (((popNextActiveAtPrice exStaleBook Side.SELL 100).1.prices Side.SELL).length <
      (exStaleBook.prices Side.SELL).length) ∧
    (exBuy105.remaining_qty -
      min exBuy105.remaining_qty
        ((get_best_resting exBook1 Side.SELL).2.getD ("", exBuy105)).2.remaining_qty <
      exBuy105.remaining_qty) := by
  constructor
  · exact (claim_C9).1 exStaleBook Side.SELL 100
      (popNextActiveAtPrice exStaleBook Side.SELL 100).1 (by decide) (by decide) (by rfl)
  · exact (claim_C9).2 exBook1 (get_best_resting exBook1 Side.SELL).1 exBuy105
      ((get_best_resting exBook1 Side.SELL).2.getD ("", exBuy105)).1
      ((get_best_resting exBook1 Side.SELL).2.getD ("", exBuy105)).2
      (by decide) (by rfl)

theorem alGet_of_mem_nodup {α β : Type} [DecidableEq α] {l : List (α × β)} {k : α} {v : β}
    (hnd : (l.map Prod.fst).Nodup) (h : (k, v) ∈ l) : alGet l k = some v := by
  induction l with
  | nil => simp at h
  | cons pr t ih =>
    obtain ⟨a, b⟩ := pr
    simp only [List.map_cons, List.nodup_cons] at hnd
    rcases List.mem_cons.mp h with h2 | h2
    · rw [show a = k by exact (congrArg Prod.fst h2).symm] at hnd ⊢
      rw [show b = v from congrArg Prod.snd h2.symm]
      simp [alGet]
    · have hak : a ≠ k := by
        intro hcon
        subst hcon
        exact hnd.1 (List.mem_map.mpr ⟨(a, v), h2, rfl⟩)
      simp [alGet, hak, ih hnd.2 h2]

theorem bestPrice_congr {b b2 : OrderBook} {s : Side} (h : b2.prices s = b.prices s) :
    b2.bestPrice s = b.bestPrice s := by
  cases s
  · exact congrArg List.getLast? h
  · exact congrArg List.head? h

/-- Structure of a successful lazy best-price lookup on a well-formed book:
the maker is found at a price that was listed at call time, it was the first
eligible entry of that queue (every skipped entry was ineligible), and in the
returned book it is the head of the queue at that price, which is the best
price of the returned book. -/
theorem gbrAux_some_struct (s : Side) (f : Nat) : ∀ {b b2 : OrderBook} {oid : String} {o : Order},
    Wf b → gbrAux s f b = (b2, some (oid, o)) →
    ∃ p pre rest,
      p ∈ b.prices s ∧
      b2.bestPrice s = some p ∧
      alGet (b.levels s) p = some (pre ++ oid :: rest) ∧
      (∀ x ∈ pre, live b.orders x = false) ∧
      alGet (b2.levels s) p = some (oid :: rest) := by
  induction f with
  | zero =>
    intro b b2 oid o hw h
    simp [gbrAux] at h
  | succ f ih =>
    intro b b2 oid o hw h
    cases hbp : b.bestPrice s with
    | none =>
      rw [show gbrAux s (f + 1) b = (b, none) by simp [gbrAux, hbp]] at h
      simp at h
    | some p0 =>
      cases hpop : popNextActiveAtPrice b s p0 with
      | mk b1 r =>
        cases r with
        | some om =>
          rw [show gbrAux s (f + 1) b = (b1, some om) by simp [gbrAux, hbp, hpop]] at h
          rw [Prod.mk.injEq, Option.some.injEq] at h
          rw [h.2] at hpop
          rw [← h.1]
          rcases pop_some_struct hpop with
            ⟨hg, ha, hr, ho, hsym, hlv, hpr, pre, rest, hl, hdead, hl2, hln, hleq⟩
          exact ⟨p0, pre, rest, bestPrice_mem hbp,
            (bestPrice_congr (hpr s)).trans hbp, hl, hdead, hl2⟩
        | none =>
          rw [show gbrAux s (f + 1) b = gbrAux s f b1 by simp [gbrAux, hbp, hpop]] at h
          have hw1 : Wf b1 := pop_wf hw hpop
          rcases ih hw1 h with ⟨p, pre, rest, hpmem, hbp2, hl, hdead, hl2⟩
          have hp0 := bestPrice_mem hbp
          rcases pop_none_wf (wfSide_of_wf hw s) hp0 hpop with
            ⟨ho, hsym, hlv, hpeq, hln, hlo, hqdead⟩
          have hpne : p ≠ p0 := by
            intro hcon
            subst hcon
            rw [hpeq] at hpmem
            exact not_mem_removeSorted (wfSide_of_wf hw s).1 p hpmem
          refine ⟨p, pre, rest, ?_, hbp2, ?_, ?_, hl2⟩
          · rw [hpeq] at hpmem
            exact (removeSorted_sublist _ _).mem hpmem
          · rw [← hlo p hpne]
            exact hl
          · intro x hx
            have := hdead x hx
            rw [ho] at this
            exact this

/-- A failed lazy best-price lookup on a well-formed book, given sufficient
fuel, certifies that no queue of the side holds an eligible entry. -/
theorem gbrAux_none_dead (s : Side) (f : Nat) : ∀ {b b2 : OrderBook},
    Wf b → (b.prices s).length < f → gbrAux s f b = (b2, none) →
    ∀ pr ∈ b.levels s, ∀ x ∈ pr.2, live b.orders x = false := by
  induction f with
  | zero =>
    intro b b2 hw hf h
    omega
  | succ f ih =>
    intro b b2 hw hf h
    cases hbp : b.bestPrice s with
    | none =>
      intro pr hpr x hx
      have := (wfSide_of_wf hw s).2.2.1 pr hpr
      rw [bestPrice_none_iff.mp hbp] at this
      simp at this
    | some p0 =>
      cases hpop : popNextActiveAtPrice b s p0 with
      | mk b1 r =>
        cases r with
        | some om =>
          rw [show gbrAux s (f + 1) b = (b1, some om) by simp [gbrAux, hbp, hpop]] at h
          simp at h
        | none =>
          rw [show gbrAux s (f + 1) b = gbrAux s f b1 by simp [gbrAux, hbp, hpop]] at h
          have hw1 : Wf b1 := pop_wf hw hpop
          have hshrink := pop_none_shrinks (wfSide_of_wf hw s) hbp hpop
          have hf1 : (b1.prices s).length < f := by omega
          have hdead1 := ih hw1 hf1 h
          have hp0 := bestPrice_mem hbp
          rcases pop_none_wf (wfSide_of_wf hw s) hp0 hpop with
            ⟨ho, hsym, hlv, hpeq, hln, hlo, hqdead⟩
          intro pr hpr x hx
          by_cases hprp : pr.1 = p0
          · have hget : alGet (b.levels s) p0 = some pr.2 := by
              rw [← hprp]
              exact alGet_of_mem_nodup (wfSide_of_wf hw s).2.2.2.2 hpr
            apply hqdead
            unfold queueOf
            rw [hget]
            simpa using hx
          · have hget : alGet (b1.levels s) pr.1 = some pr.2 := by
              rw [hlo pr.1 hprp]
              exact alGet_of_mem_nodup (wfSide_of_wf hw s).2.2.2.2 hpr
            have hd := hdead1 (pr.1, pr.2) (alGet_mem hget) x (by simpa using hx)
            rw [ho] at hd
            exact hd

/-- Claim C7: the lazy best-resting lookup returns an eligible order without
removing it from its queue (it stays at the head, at the best price of the
returned book, and an immediate second lookup returns it again from the
unchanged book); the lookup discards only ineligible entries, removes a price
only when its whole queue was ineligible, and returns none exactly when the
side holds no eligible order. -/
theorem claim_C7 (b : OrderBook) (s : Side) :
    (∀ b2 oid o, get_best_resting b s = (b2, some (oid, o)) →
      (alGet b.orders oid = some o ∧ o.active = true ∧ 0 < o.remaining_qty) ∧
      b2.orders = b.orders ∧
      (Wf b → ∃ p rest, b2.bestPrice s = some p ∧ alGet (b2.levels s) p = some (oid :: rest)) ∧
      (Wf b → get_best_resting b2 s = (b2, some (oid, o)))) ∧
    (∀ b2 r, get_best_resting b s = (b2, r) →
      ∀ p oid2, oid2 ∈ queueOf b s p → live b.orders oid2 = true → oid2 ∈ queueOf b2 s p) ∧
    (∀ b2 r, get_best_resting b s = (b2, r) →
      ∀ p, p ∈ b.prices s → p ∉ b2.prices s → ∀ x ∈ queueOf b s p, live b.orders x = false) ∧
    (Wf b → ∀ b2, get_best_resting b s = (b2, none) →
      ∀ pr ∈ b.levels s, ∀ x ∈ pr.2, live b.orders x = false) ∧
    (Wf b → (∀ pr ∈ b.levels s, ∀ x ∈ pr.2, live b.orders x = false) →
      (get_best_resting b s).2 = none) := by
  refine ⟨?_, ?_, ?_, ?_, ?_⟩
  · intro b2 oid o h
    have helig := gbr_some_elig h
    have hords : b2.orders = b.orders := by
      rw [show b2 = (get_best_resting b s).1 by rw [h]]
      exact (gbrAux_package s _ b).1
    refine ⟨helig, hords, ?_, ?_⟩
    · intro hw
      rcases gbrAux_some_struct s _ hw h with ⟨p, pre, rest, _, hbp2, _, _, hl2⟩
      exact ⟨p, rest, hbp2, hl2⟩
    · intro hw
      rcases gbrAux_some_struct s _ hw h with ⟨p, pre, rest, _, hbp2, _, _, hl2⟩
      have hgo : alGet b2.orders oid = some o := by
        rw [hords]
        exact helig.1
      have hscan : scanQueue b2.orders (oid :: rest) = (oid :: rest, some (oid, o)) := by
        simp [scanQueue, hgo, helig.2.1, helig.2.2]
      have hset : setLevelQueue b2 s p (oid :: rest) = b2 := by
        unfold setLevelQueue
        rw [alSet_of_alGet hl2, setLevels_self]
      have hpop2 : popNextActiveAtPrice b2 s p = (b2, some (oid, o)) := by
        unfold popNextActiveAtPrice
        rw [hl2]
        simp [hscan, hset]
      show gbrAux s ((b2.prices s).length + 1) b2 = (b2, some (oid, o))
      simp [gbrAux, hbp2, hpop2]
  · intro b2 r h p oid2 hq hl
    have hev : sideEvolve b b2 s := by
      rw [show b2 = (get_best_resting b s).1 by rw [h]]
      exact (gbrAux_package s _ b).2.2.1
    unfold queueOf at hq ⊢
    cases hget : alGet (b.levels s) p with
    | none =>
      rw [hget] at hq
      simp at hq
    | some q =>
      rw [hget] at hq
      rcases hev.1 p q hget with hdead | ⟨pre, q2, hq2, hqeq, hpre⟩
      · rw [hdead oid2 (by simpa using hq)] at hl
        simp at hl
      · rw [hq2]
        subst hqeq
        rcases List.mem_append.mp (by simpa using hq) with hx | hx
        · rw [hpre oid2 hx] at hl
          simp at hl
        · simpa using hx
  · intro b2 r h p hp hnp x hx
    have hev : sideEvolve b b2 s := by
      rw [show b2 = (get_best_resting b s).1 by rw [h]]
      exact (gbrAux_package s _ b).2.2.1
    unfold queueOf at hx
    cases hget : alGet (b.levels s) p with
    | none =>
      rw [hget] at hx
      simp at hx
    | some q =>
      rw [hget] at hx
      exact hev.2.2.2 p q hget hp hnp x (by simpa using hx)
  · intro hw b2 h
    exact gbrAux_none_dead s _ hw (by omega) h
  · intro hw hdead
    cases hr : (get_best_resting b s).2 with
    | none => rfl
    | some om =>
      obtain ⟨oid, o⟩ := om
      have h : get_best_resting b s = ((get_best_resting b s).1, some (oid, o)) := by
        rw [← hr]
      rcases gbrAux_some_struct s _ hw h with ⟨p, pre, rest, hpmem, hbp2, hl, hpre, hl2⟩
      have helig := gbr_some_elig h
      have hdx := hdead (p, pre ++ oid :: rest) (alGet_mem hl) oid (by simp)
      have hlive := live_of_parts helig.1 helig.2.1 helig.2.2
      rw [hdx] at hlive
      simp at hlive

/-- Witness for claim C7: on the example book with one live resting sell, the
lookup finds it, keeps it at the head of its queue, and a second lookup
returns it again. -/
theorem claim_C7_witness :
    (alGet exBook1.orders "s1" =
        some ((get_best_resting exBook1 Side.SELL).2.getD ("", exBuy100)).2 ∧
      ((get_best_resting exBook1 Side.SELL).2.getD ("", exBuy100)).2.active = true ∧
      0 < ((get_best_resting exBook1 Side.SELL).2.getD ("", exBuy100)).2.remaining_qty) ∧
    get_best_resting (get_best_resting exBook1 Side.SELL).1 Side.SELL =
      ((get_best_resting exBook1 Side.SELL).1,
        some ("s1", ((get_best_resting exBook1 Side.SELL).2.getD ("", exBuy100)).2)) := by
  have h := (claim_C7 exBook1 Side.SELL).1 (get_best_resting exBook1 Side.SELL).1 "s1"
    ((get_best_resting exBook1 Side.SELL).2.getD ("", exBuy100)).2 (by rfl)
  exact ⟨h.1, h.2.2.2 (by decide)⟩

/-! ### Match loop lemmas -/

theorem withOrders_orders (b : OrderBook) (os : List (String × Order)) :
    (withOrders b os).orders = os := rfl

theorem withOrders_levels (b : OrderBook) (os : List (String × Order)) (s : Side) :
    (withOrders b os).levels s = b.levels s := by
  cases s <;> rfl

theorem withOrders_prices (b : OrderBook) (os : List (String × Order)) (s : Side) :
    (withOrders b os).prices s = b.prices s := by
  cases s <;> rfl

theorem remAt_congr {b b2 : OrderBook} (h : b2.orders = b.orders) (k : String) :
    remAt b2 k = remAt b k := by
  unfold remAt
  rw [h]

theorem KC_withOrders_alSet {b : OrderBook} {k : String} {v : Order}
    (hkc : KeysConsistent b) (hv : v.order_id = k) :
    KeysConsistent (withOrders b (alSet b.orders k v)) := by
  intro pr hpr
  rw [withOrders_orders] at hpr
  rcases mem_alSet hpr with h | h
  · exact hkc pr h
  · rw [h]
    exact hv

/-- Stop equations of the match loop. -/
theorem matchLoop_stop_zero {f : Nat} {book : OrderBook} {taker : Order} {nid : Nat}
    (hrem : ¬ 0 < taker.remaining_qty) :
    matchLoopAux f book taker nid = (book, taker, []) := by
  cases f with
  | zero => rfl
  | succ f => simp [matchLoopAux, hrem]

theorem matchLoop_stop_cross {f : Nat} {book : OrderBook} {taker : Order} {nid : Nat}
    (hrem : 0 < taker.remaining_qty) (hcross : ¬ takerCrosses book taker = true) :
    matchLoopAux (Nat.succ f) book taker nid = (book, taker, []) := by
  simp [matchLoopAux, hrem, hcross]

theorem matchLoop_stop_none {f : Nat} {book book1 : OrderBook} {taker : Order} {nid : Nat}
    (hrem : 0 < taker.remaining_qty) (hcross : takerCrosses book taker = true)
    (hgbr : get_best_resting book (oppSide taker.side) = (book1, none)) :
    matchLoopAux (Nat.succ f) book taker nid = (book1, taker, []) := by
  simp [matchLoopAux, hrem, hcross, hgbr]

/-- Step equation of the match loop when a maker is found. -/
theorem matchLoop_step {f : Nat} {book book1 : OrderBook} {taker : Order} {nid : Nat}
    {oid : String} {m : Order}
    (hrem : 0 < taker.remaining_qty) (hcross : takerCrosses book taker = true)
    (hgbr : get_best_resting book (oppSide taker.side) = (book1, some (oid, m))) :
    matchLoopAux (Nat.succ f) book taker nid =
      ((matchLoopAux f
          (withOrders book1 (alSet book1.orders oid
            (fillUpdate m (min taker.remaining_qty m.remaining_qty))))
          (fillUpdate taker (min taker.remaining_qty m.remaining_qty)) (nid + 1)).1,
       (matchLoopAux f
          (withOrders book1 (alSet book1.orders oid
            (fillUpdate m (min taker.remaining_qty m.remaining_qty))))
          (fillUpdate taker (min taker.remaining_qty m.remaining_qty)) (nid + 1)).2.1,
       mkTrade nid book.symbol m taker (min taker.remaining_qty m.remaining_qty) ::
         (matchLoopAux f
            (withOrders book1 (alSet book1.orders oid
              (fillUpdate m (min taker.remaining_qty m.remaining_qty))))
            (fillUpdate taker (min taker.remaining_qty m.remaining_qty)) (nid + 1)).2.2) := by
  simp [matchLoopAux, hrem, hcross, hgbr]

/-- The unchanging taker fields across the match loop. -/
theorem matchLoop_taker_fields (f : Nat) : ∀ (book : OrderBook) (taker : Order) (nid : Nat),
    (matchLoopAux f book taker nid).2.1.order_id = taker.order_id ∧
    (matchLoopAux f book taker nid).2.1.symbol = taker.symbol ∧
    (matchLoopAux f book taker nid).2.1.side = taker.side ∧
    (matchLoopAux f book taker nid).2.1.type = taker.type ∧
    (matchLoopAux f book taker nid).2.1.price_cents = taker.price_cents ∧
    (matchLoopAux f book taker nid).2.1.qty = taker.qty := by
  induction f with
  | zero =>
    intro book taker nid
    exact ⟨rfl, rfl, rfl, rfl, rfl, rfl⟩
  | succ f ih =>
    intro book taker nid
    by_cases hrem : 0 < taker.remaining_qty
    · by_cases hcross : takerCrosses book taker = true
      · cases hgbr : get_best_resting book (oppSide taker.side) with
        | mk book1 r0 =>
          cases r0 with
          | none =>
            rw [matchLoop_stop_none hrem hcross hgbr]
            exact ⟨rfl, rfl, rfl, rfl, rfl, rfl⟩
          | some om =>
            obtain ⟨oid, m⟩ := om
            rw [matchLoop_step hrem hcross hgbr]
            exact ih _ _ _
      · rw [matchLoop_stop_cross hrem hcross]
        exact ⟨rfl, rfl, rfl, rfl, rfl, rfl⟩
    · rw [matchLoop_stop_zero hrem]
      exact ⟨rfl, rfl, rfl, rfl, rfl, rfl⟩

/-- Taker-side conservation across the match loop. -/
theorem matchLoop_taker_conserve (f : Nat) : ∀ (book : OrderBook) (taker : Order) (nid : Nat),
    (matchLoopAux f book taker nid).2.1.remaining_qty +
      sumQty (matchLoopAux f book taker nid).2.2 = taker.remaining_qty := by
  induction f with
  | zero =>
    intro book taker nid
    simp [matchLoopAux, sumQty]
  | succ f ih =>
    intro book taker nid
    by_cases hrem : 0 < taker.remaining_qty
    · by_cases hcross : takerCrosses book taker = true
      · cases hgbr : get_best_resting book (oppSide taker.side) with
        | mk book1 r0 =>
          cases r0 with
          | none =>
            rw [matchLoop_stop_none hrem hcross hgbr]
            simp [sumQty]
          | some om =>
            obtain ⟨oid, m⟩ := om
            rw [matchLoop_step hrem hcross hgbr]
            have hih := ih (withOrders book1 (alSet book1.orders oid
              (fillUpdate m (min taker.remaining_qty m.remaining_qty))))
              (fillUpdate taker (min taker.remaining_qty m.remaining_qty)) (nid + 1)
            have hq : min taker.remaining_qty m.remaining_qty ≤ taker.remaining_qty :=
              Nat.min_le_left _ _
            simp only [sumQty, mkTrade] at hih ⊢
            have hfill : (fillUpdate taker (min taker.remaining_qty m.remaining_qty)).remaining_qty =
                taker.remaining_qty - min taker.remaining_qty m.remaining_qty := rfl
            rw [hfill] at hih
            omega
      · rw [matchLoop_stop_cross hrem hcross]
        simp [sumQty]
    · rw [matchLoop_stop_zero hrem]
      simp [sumQty]

/-- Maker-side conservation across the match loop: for every order id, the
stored remaining quantity decreases by exactly the total quantity of the
trades naming it as maker. -/
theorem matchLoop_maker_conserve (f : Nat) : ∀ (book : OrderBook) (taker : Order) (nid : Nat),
    KeysConsistent book → ∀ k,
    remAt book k = remAt (matchLoopAux f book taker nid).1 k +
      sumQtyFor k (matchLoopAux f book taker nid).2.2 := by
  induction f with
  | zero =>
    intro book taker nid hkc k
    simp [matchLoopAux, sumQtyFor]
  | succ f ih =>
    intro book taker nid hkc k
    by_cases hrem : 0 < taker.remaining_qty
    · by_cases hcross : takerCrosses book taker = true
      · cases hgbr : get_best_resting book (oppSide taker.side) with
        | mk book1 r0 =>
          have hords1 : book1.orders = book.orders := by
            rw [show book1 = (get_best_resting book (oppSide taker.side)).1 by rw [hgbr]]
            exact (gbrAux_package (oppSide taker.side) _ book).1
          cases r0 with
          | none =>
            rw [matchLoop_stop_none hrem hcross hgbr]
            simp [sumQtyFor, remAt_congr hords1]
          | some om =>
            obtain ⟨oid, m⟩ := om
            rw [matchLoop_step hrem hcross hgbr]
            have helig := gbr_some_elig hgbr
            have hmid : m.order_id = oid := hkc (oid, m) (alGet_mem helig.1)
            have hkc1 : KeysConsistent book1 := KC_transfer hkc hords1
            have hkc2 : KeysConsistent (withOrders book1 (alSet book1.orders oid
                (fillUpdate m (min taker.remaining_qty m.remaining_qty)))) :=
              KC_withOrders_alSet hkc1 hmid
            have hih := ih _ (fillUpdate taker (min taker.remaining_qty m.remaining_qty))
              (nid + 1) hkc2 k
            simp only [sumQtyFor, mkTrade]
            by_cases hk : k = oid
            · subst hk
              have hrb : remAt book k = m.remaining_qty := by
                unfold remAt
                rw [helig.1]
              have hrb2 : remAt (withOrders book1 (alSet book1.orders k
                  (fillUpdate m (min taker.remaining_qty m.remaining_qty)))) k =
                  m.remaining_qty - min taker.remaining_qty m.remaining_qty := by
                unfold remAt
                rw [withOrders_orders, alGet_set_eq]
                rfl
              rw [hrb2] at hih
              have hqle : min taker.remaining_qty m.remaining_qty ≤ m.remaining_qty :=
                Nat.min_le_right _ _
              rw [hrb, if_pos hmid]
              omega
            · have hrb2 : remAt (withOrders book1 (alSet book1.orders oid
                  (fillUpdate m (min taker.remaining_qty m.remaining_qty)))) k =
                  remAt book k := by
                unfold remAt
                rw [withOrders_orders, alGet_set_ne _ _ _ _ hk, hords1]
              rw [hrb2] at hih
              rw [if_neg (by rw [hmid]; exact fun h => hk h.symm)]
              omega
      · rw [matchLoop_stop_cross hrem hcross]
        simp [sumQtyFor]
    · rw [matchLoop_stop_zero hrem]
      simp [sumQtyFor]

theorem ensure_orders (b : OrderBook) (s : Side) (p : Nat) :
    (ensurePriceLevel b s p).orders = b.orders := by
  unfold ensurePriceLevel
  split
  · rfl
  · rw [orders_setPrices, orders_setLevels]

theorem add_resting_ok_orders {b : OrderBook} {o : Order} {b3 : OrderBook}
    (h : add_resting_limit b o = Except.ok b3) :
    b3.orders = alSet b.orders o.order_id ({ o with status := OrderStatus.RESTING }) := by
  unfold add_resting_limit at h
  split at h
  · simp at h
  · split at h
    · simp at h
    · rw [Except.ok.injEq] at h
      subst h
      unfold setLevelQueue
      rw [orders_setLevels, ensure_orders]

/-- Every rejection path of the matcher: the taker is rejected in place and
nothing else happens. -/
theorem match_order_reject {b : OrderBook} {t : Order}
    (h : t.symbol ≠ b.symbol ∨ t.type ≠ OrderType.LIMIT) :
    match_order b t =
      Except.ok (b, { t with status := OrderStatus.REJECTED, active := false }, []) := by
  rcases h with h | h
  · simp [match_order, h]
  · by_cases hs : t.symbol = b.symbol
    · simp [match_order, hs, h]
    · simp [match_order, hs]

/-- Decomposition of a successful matched call (symbol and type checks both
passing) into the loop result and the optional resting step. -/
theorem match_order_ok_cases {b : OrderBook} {t : Order} {b2 : OrderBook} {t2 : Order}
    {tr : List Trade} (hsym : t.symbol = b.symbol) (hty : t.type = OrderType.LIMIT)
    (h : match_order b t = Except.ok (b2, t2, tr)) :
    (0 < (matchLoopAux (t.remaining_qty + 1) b t 0).2.1.remaining_qty ∧
      add_resting_limit (matchLoopAux (t.remaining_qty + 1) b t 0).1
        (matchLoopAux (t.remaining_qty + 1) b t 0).2.1 = Except.ok b2 ∧
      t2 = { (matchLoopAux (t.remaining_qty + 1) b t 0).2.1 with
        status := OrderStatus.RESTING } ∧
      tr = (matchLoopAux (t.remaining_qty + 1) b t 0).2.2) ∨
    ((matchLoopAux (t.remaining_qty + 1) b t 0).2.1.remaining_qty = 0 ∧
      b2 = (matchLoopAux (t.remaining_qty + 1) b t 0).1 ∧
      t2 = (matchLoopAux (t.remaining_qty + 1) b t 0).2.1 ∧
      tr = (matchLoopAux (t.remaining_qty + 1) b t 0).2.2) := by
  unfold match_order at h
  rw [if_neg (by simp [hsym]), if_neg (by simp [hty])] at h
  by_cases hrem : 0 < (matchLoopAux (t.remaining_qty + 1) b t 0).2.1.remaining_qty
  · rw [if_pos hrem] at h
    cases hadd : add_resting_limit (matchLoopAux (t.remaining_qty + 1) b t 0).1
        (matchLoopAux (t.remaining_qty + 1) b t 0).2.1 with
    | error e =>
      rw [hadd] at h
      simp at h
    | ok b3 =>
      rw [hadd] at h
      rw [Except.ok.injEq, Prod.mk.injEq, Prod.mk.injEq] at h
      exact Or.inl ⟨hrem, congrArg Except.ok h.1, h.2.1.symm, h.2.2.symm⟩
  · rw [if_neg hrem] at h
    rw [Except.ok.injEq, Prod.mk.injEq, Prod.mk.injEq] at h
    exact Or.inr ⟨Nat.eq_zero_of_not_pos hrem, h.1.symm, h.2.1.symm, h.2.2.symm⟩

/-- Claim C2: conservation of quantity in one match call.  The final taker
remaining quantity plus the total traded quantity equals the initial taker
remaining quantity; and for every other order id, the stored remaining
quantity before the call equals the stored remaining quantity after the call
plus the total quantity of the returned trades naming it as maker. -/
theorem claim_C2 (b : OrderBook) (t : Order) (b2 : OrderBook) (t2 : Order) (tr : List Trade)
    (hkc : KeysConsistent b)
    (h : match_order b t = Except.ok (b2, t2, tr)) :
    t2.remaining_qty + sumQty tr = t.remaining_qty ∧
    ∀ k, k ≠ t.order_id → remAt b k = remAt b2 k + sumQtyFor k tr := by
  by_cases hsym : t.symbol = b.symbol
  · by_cases hty : t.type = OrderType.LIMIT
    · rcases match_order_ok_cases hsym hty h with
        ⟨hrem, hadd, ht2, htr⟩ | ⟨hrem, hb2, ht2, htr⟩
      · constructor
        · rw [ht2, htr]
          exact matchLoop_taker_conserve _ b t 0
        · intro k hk
          have hloop := matchLoop_maker_conserve (t.remaining_qty + 1) b t 0 hkc k
          have htid : (matchLoopAux (t.remaining_qty + 1) b t 0).2.1.order_id = t.order_id :=
            (matchLoop_taker_fields _ b t 0).1
          have hb2o := add_resting_ok_orders hadd
          have hrb2 : remAt b2 k = remAt (matchLoopAux (t.remaining_qty + 1) b t 0).1 k := by
            unfold remAt
            rw [hb2o, htid, alGet_set_ne _ _ _ _ hk]
          rw [hrb2, htr]
          exact hloop
      · constructor
        · rw [ht2, htr]
          exact matchLoop_taker_conserve _ b t 0
        · intro k hk
          rw [hb2, htr]
          exact matchLoop_maker_conserve (t.remaining_qty + 1) b t 0 hkc k
    · rw [match_order_reject (Or.inr hty)] at h
      rw [Except.ok.injEq, Prod.mk.injEq, Prod.mk.injEq] at h
      rw [← h.2.1, ← h.2.2, ← h.1]
      exact ⟨by simp [sumQty], fun k hk => by simp [sumQtyFor]⟩
  · rw [match_order_reject (Or.inl hsym)] at h
    rw [Except.ok.injEq, Prod.mk.injEq, Prod.mk.injEq] at h
    rw [← h.2.1, ← h.2.2, ← h.1]
    exact ⟨by simp [sumQty], fun k hk => by simp [sumQtyFor]⟩

/-- Witness for claim C2: a buy for 3 against the resting sell for 5 at 100
trades 3, leaves the maker with 2 and the taker with 0. -/
theorem claim_C2_witness :
    (resTaker exBook1 exBuy100).remaining_qty + sumQty (resTrades exBook1 exBuy100) =
      exBuy100.remaining_qty ∧
    remAt exBook1 "s1" =
      remAt (resBook exBook1 exBuy100) "s1" + sumQtyFor "s1" (resTrades exBook1 exBuy100) := by
  have h := claim_C2 exBook1 exBuy100 (resBook exBook1 exBuy100)
    (resTaker exBook1 exBuy100) (resTrades exBook1 exBuy100) (by decide) (by rfl)
  exact ⟨h.1, h.2 "s1" (by decide)⟩

/-! ### Status machine lemmas -/

theorem matchLoop_zero_rem {f : Nat} {book : OrderBook} {t : Order} {nid : Nat}
    (h : t.remaining_qty = 0) : matchLoopAux f book t nid = (book, t, []) :=
  matchLoop_stop_zero (by omega)

/-- A taker that ends the loop with zero remaining quantity (having started
with a positive one) is FILLED and inactive. -/
theorem matchLoop_taker_filled (f : Nat) : ∀ (book : OrderBook) (taker : Order) (nid : Nat),
    0 < taker.remaining_qty →
    (matchLoopAux f book taker nid).2.1.remaining_qty = 0 →
    (matchLoopAux f book taker nid).2.1.status = OrderStatus.FILLED ∧
    (matchLoopAux f book taker nid).2.1.active = false := by
  induction f with
  | zero =>
    intro book taker nid hrem h0
    have h02 : taker.remaining_qty = 0 := h0
    omega
  | succ f ih =>
    intro book taker nid hrem h0
    by_cases hcross : takerCrosses book taker = true
    · cases hgbr : get_best_resting book (oppSide taker.side) with
      | mk book1 r0 =>
        cases r0 with
        | none =>
          rw [matchLoop_stop_none hrem hcross hgbr] at h0 ⊢
          have h02 : taker.remaining_qty = 0 := h0
          omega
        | some om =>
          obtain ⟨oid, m⟩ := om
          rw [matchLoop_step hrem hcross hgbr] at h0 ⊢
          by_cases h2 : (fillUpdate taker (min taker.remaining_qty m.remaining_qty)).remaining_qty = 0
          · rw [matchLoop_zero_rem h2]
            have hq0 : taker.remaining_qty - min taker.remaining_qty m.remaining_qty = 0 := h2
            simp only [fillUpdate]
            rw [if_pos hq0, if_pos hq0]
            exact ⟨rfl, rfl⟩
          · exact ih _ _ _ (by omega) h0
    · rw [matchLoop_stop_cross hrem hcross] at h0 ⊢
      have h02 : taker.remaining_qty = 0 := h0
      omega

theorem active_nonterminal_status {o : Order} (h1 : o.status ≠ OrderStatus.NEW)
    (h2 : o.status ≠ OrderStatus.REJECTED)
    (h3 : isTerminal o.status → o.active = false) (ha : o.active = true) :
    o.status = OrderStatus.RESTING ∨ o.status = OrderStatus.PARTFILL := by
  cases h : o.status with
  | NEW => exact absurd h h1
  | RESTING => exact Or.inl rfl
  | PARTFILL => exact Or.inr rfl
  | FILLED =>
    rw [h3 (by rw [h]; unfold isTerminal; simp)] at ha
    simp at ha
  | CANCELED =>
    rw [h3 (by rw [h]; unfold isTerminal; simp)] at ha
    simp at ha
  | REJECTED => exact absurd h h2

/-- Status evolution of stored orders across the match loop: an entry is
unchanged, or it was an eligible RESTING/PARTFILL maker and is now PARTFILL
with unchanged activity or FILLED and inactive.  The status invariant is
preserved. -/
theorem matchLoop_status (f : Nat) : ∀ (book : OrderBook) (taker : Order) (nid : Nat),
    StatusInv book →
    StatusInv (matchLoopAux f book taker nid).1 ∧
    ∀ k o o2, alGet book.orders k = some o →
      alGet (matchLoopAux f book taker nid).1.orders k = some o2 →
      o2 = o ∨ ((o.status = OrderStatus.RESTING ∨ o.status = OrderStatus.PARTFILL) ∧
        ((o2.status = OrderStatus.PARTFILL ∧ o2.active = o.active) ∨
         (o2.status = OrderStatus.FILLED ∧ o2.active = false))) := by
  induction f with
  | zero =>
    intro book taker nid hs
    refine ⟨hs, ?_⟩
    intro k o o2 h1 h2
    rw [show matchLoopAux 0 book taker nid = (book, taker, []) from rfl] at h2
    rw [h1] at h2
    exact Or.inl (by injection h2 with h3; exact h3.symm)
  | succ f ih =>
    intro book taker nid hs
    by_cases hrem : 0 < taker.remaining_qty
    · by_cases hcross : takerCrosses book taker = true
      · cases hgbr : get_best_resting book (oppSide taker.side) with
        | mk book1 r0 =>
          have hords1 : book1.orders = book.orders := by
            rw [show book1 = (get_best_resting book (oppSide taker.side)).1 by rw [hgbr]]
            exact (gbrAux_package (oppSide taker.side) _ book).1
          cases r0 with
          | none =>
            rw [matchLoop_stop_none hrem hcross hgbr]
            refine ⟨StatusInv_transfer hs hords1, ?_⟩
            intro k o o2 h1 h2
            rw [hords1, h1] at h2
            exact Or.inl (by injection h2 with h3; exact h3.symm)
          | some om =>
            obtain ⟨oid, m⟩ := om
            rw [matchLoop_step hrem hcross hgbr]
            have helig := gbr_some_elig hgbr
            have hsm := hs (oid, m) (alGet_mem helig.1)
            have hmst := active_nonterminal_status hsm.1 hsm.2.1 hsm.2.2 helig.2.1
            have hs2 : StatusInv (withOrders book1 (alSet book1.orders oid
                (fillUpdate m (min taker.remaining_qty m.remaining_qty)))) := by
              intro pr hpr
              rw [withOrders_orders] at hpr
              rcases mem_alSet hpr with hm | hm
              · rw [hords1] at hm
                exact hs pr hm
              · rw [hm]
                simp only [fillUpdate]
                by_cases hq0 : m.remaining_qty - min taker.remaining_qty m.remaining_qty = 0
                · rw [if_pos hq0, if_pos hq0]
                  unfold isTerminal
                  exact ⟨by simp, by simp, fun _ => rfl⟩
                · rw [if_neg hq0, if_neg hq0]
                  unfold isTerminal
                  exact ⟨by simp, by simp, by simp⟩
            rcases ih _ (fillUpdate taker (min taker.remaining_qty m.remaining_qty))
              (nid + 1) hs2 with ⟨ihinv, ihtr⟩
            refine ⟨ihinv, ?_⟩
            intro k o o2 h1 h2
            by_cases hk : k = oid
            · subst hk
              have hom : o = m := by
                rw [helig.1] at h1
                injection h1 with h3
                exact h3.symm
              subst hom
              have hmid : alGet (withOrders book1 (alSet book1.orders k
                  (fillUpdate o (min taker.remaining_qty o.remaining_qty)))).orders k =
                  some (fillUpdate o (min taker.remaining_qty o.remaining_qty)) := by
                rw [withOrders_orders]
                exact alGet_set_eq _ _ _
              rcases ihtr k _ o2 hmid h2 with h3 | h3
              · subst h3
                refine Or.inr ⟨hmst, ?_⟩
                simp only [fillUpdate]
                by_cases hq0 : o.remaining_qty - min taker.remaining_qty o.remaining_qty = 0
                · rw [if_pos hq0, if_pos hq0]
                  exact Or.inr ⟨rfl, rfl⟩
                · rw [if_neg hq0, if_neg hq0]
                  exact Or.inl ⟨rfl, rfl⟩
              · refine Or.inr ⟨hmst, ?_⟩
                rcases h3.2 with h4 | h4
                · by_cases hq0 : o.remaining_qty - min taker.remaining_qty o.remaining_qty = 0
                  · exfalso
                    rcases h3.1 with h5 | h5 <;>
                      simp [fillUpdate, if_pos hq0] at h5
                  · refine Or.inl ⟨h4.1, ?_⟩
                    rw [h4.2]
                    simp [fillUpdate, if_neg hq0]
                · exact Or.inr h4
            · have hmid : alGet (withOrders book1 (alSet book1.orders oid
                  (fillUpdate m (min taker.remaining_qty m.remaining_qty)))).orders k =
                  some o := by
                rw [withOrders_orders, alGet_set_ne _ _ _ _ hk, hords1]
                exact h1
              exact ihtr k o o2 hmid h2
      · rw [matchLoop_stop_cross hrem hcross]
        refine ⟨hs, ?_⟩
        intro k o o2 h1 h2
        rw [h1] at h2
        exact Or.inl (by injection h2 with h3; exact h3.symm)
    · rw [matchLoop_stop_zero hrem]
      refine ⟨hs, ?_⟩
      intro k o o2 h1 h2
      rw [h1] at h2
      exact Or.inl (by injection h2 with h3; exact h3.symm)

/-- A successful call preserves the status invariant of the stored map. -/
theorem match_order_statusInv {b : OrderBook} {t : Order} {b2 : OrderBook} {t2 : Order}
    {tr : List Trade} (hs : StatusInv b)
    (h : match_order b t = Except.ok (b2, t2, tr)) : StatusInv b2 := by
  by_cases hsym : t.symbol = b.symbol
  · by_cases hty : t.type = OrderType.LIMIT
    · rcases match_order_ok_cases hsym hty h with
        ⟨hrem, hadd, ht2, htr⟩ | ⟨hrem, hb2, ht2, htr⟩
      · have hinv := (matchLoop_status (t.remaining_qty + 1) b t 0 hs).1
        have hb2o := add_resting_ok_orders hadd
        intro pr hpr
        rw [hb2o] at hpr
        rcases mem_alSet hpr with hm | hm
        · exact hinv pr hm
        · rw [hm]
          unfold isTerminal
          exact ⟨by simp, by simp, by simp⟩
      · rw [hb2]
        exact (matchLoop_status (t.remaining_qty + 1) b t 0 hs).1
    · rw [match_order_reject (Or.inr hty)] at h
      rw [Except.ok.injEq, Prod.mk.injEq] at h
      rw [← h.1]
      exact hs
  · rw [match_order_reject (Or.inl hsym)] at h
    rw [Except.ok.injEq, Prod.mk.injEq] at h
    rw [← h.1]
    exact hs

theorem cancel_statusInv {b : OrderBook} (oid : String) (hs : StatusInv b) :
    StatusInv (b.cancel oid).1 := by
  cases hg : alGet b.orders oid with
  | none =>
    rw [cancel_of_none hg]
    exact hs
  | some o =>
    by_cases hcond : o.active = false ∨ o.remaining_qty = 0
    · rw [cancel_of_dead hg hcond]
      exact hs
    · have ha : o.active = true := by
        cases hab : o.active
        · exact absurd (Or.inl hab) hcond
        · rfl
      have hr : 0 < o.remaining_qty := by
        rcases Nat.eq_zero_or_pos o.remaining_qty with h0 | h0
        · exact absurd (Or.inr h0) hcond
        · exact h0
      rw [cancel_of_live hg ha hr]
      intro pr hpr
      rcases mem_alSet hpr with hm | hm
      · exact hs pr hm
      · rw [hm]
        unfold canceledUpd isTerminal
        exact ⟨by simp, by simp, fun _ => rfl⟩

/-- Every reachable book satisfies the status invariant. -/
theorem reachable_statusInv : ∀ b, Reachable b → StatusInv b := by
  intro b h
  induction h with
  | init sym =>
    intro pr hpr
    simp [emptyBook] at hpr
  | step_match b t b2 t2 tr hb hm ih => exact match_order_statusInv ih hm
  | step_cancel b oid hb ih => exact cancel_statusInv oid ih

/-- Claim C3, amended: under the public entry points (`match_order` with a
fresh NEW taker, and `cancel`; `add_resting_limit` only as invoked internally
by `match_order`), every status change follows the state machine NEW to
REJECTED, RESTING or FILLED, RESTING and PARTFILL to PARTFILL, FILLED or
CANCELED, terminal statuses are never left, and a terminal status implies the
active flag is false.  Every reachable book satisfies the stored-order status
invariant.  A direct `add_resting_limit` call is excluded: it can move even a
CANCELED order back to RESTING (see the counterexample). -/
theorem claim_C3 :
    (∀ b, Reachable b → StatusInv b) ∧
    (∀ b t b2 t2 tr, StatusInv b → t.status = OrderStatus.NEW →
      t.remaining_qty = t.qty → 0 < t.qty → alGet b.orders t.order_id = none →
      match_order b t = Except.ok (b2, t2, tr) →
      (AllowedChange t.status t2.status ∧ (isTerminal t2.status → t2.active = false)) ∧
      StatusInv b2 ∧
      (∀ k o o2, alGet b.orders k = some o → alGet b2.orders k = some o2 →
        AllowedChange o.status o2.status ∧ (isTerminal o2.status → o2.active = false))) ∧
    (∀ b oid, StatusInv b →
      StatusInv (b.cancel oid).1 ∧
      ∀ k o o2, alGet b.orders k = some o → alGet (b.cancel oid).1.orders k = some o2 →
        AllowedChange o.status o2.status ∧ (isTerminal o2.status → o2.active = false)) := by
  refine ⟨reachable_statusInv, ?_, ?_⟩
  · intro b t b2 t2 tr hs hnew hremq hqty hfresh h
    have hrem0 : 0 < t.remaining_qty := by omega
    have hinv2 := match_order_statusInv hs h
    by_cases hrej : t.symbol ≠ b.symbol ∨ t.type ≠ OrderType.LIMIT
    · rw [match_order_reject hrej] at h
      rw [Except.ok.injEq, Prod.mk.injEq, Prod.mk.injEq] at h
      refine ⟨?_, hinv2, ?_⟩
      · rw [← h.2.1, hnew]
        unfold AllowedChange
        exact ⟨Or.inr (Or.inl ⟨rfl, Or.inl rfl⟩), fun _ => rfl⟩
      · intro k o o2 h1 h2
        rw [← h.1, h1] at h2
        injection h2 with h3
        subst h3
        refine ⟨Or.inl rfl, ?_⟩
        intro hterm
        exact (hs (k, o) (alGet_mem h1)).2.2 hterm
    · push_neg at hrej
      obtain ⟨hsym, hty⟩ := hrej
      rcases match_order_ok_cases hsym hty h with
        ⟨hrem, hadd, ht2, htr⟩ | ⟨hrem, hb2, ht2, htr⟩
      · refine ⟨?_, hinv2, ?_⟩
        · rw [ht2, hnew]
          unfold AllowedChange isTerminal
          exact ⟨Or.inr (Or.inl ⟨rfl, Or.inr (Or.inl rfl)⟩), by simp⟩
        · intro k o o2 h1 h2
          have hk : k ≠ t.order_id := by
            intro hcon
            rw [hcon, hfresh] at h1
            simp at h1
          have hb2o := add_resting_ok_orders hadd
          have htid : (matchLoopAux (t.remaining_qty + 1) b t 0).2.1.order_id =
              t.order_id := (matchLoop_taker_fields _ b t 0).1
          rw [hb2o, htid, alGet_set_ne _ _ _ _ hk] at h2
          rcases (matchLoop_status (t.remaining_qty + 1) b t 0 hs).2 k o o2 h1 h2 with
            h3 | ⟨h3, h4⟩
          · subst h3
            refine ⟨Or.inl rfl, ?_⟩
            intro hterm
            exact (hs (k, o2) (alGet_mem h1)).2.2 hterm
          · unfold AllowedChange
            rcases h4 with ⟨h5, h6⟩ | ⟨h5, h6⟩
            · refine ⟨?_, ?_⟩
              · rcases h3 with h7 | h7
                · exact Or.inr (Or.inr (Or.inl ⟨h7, Or.inl h5⟩))
                · exact Or.inr (Or.inr (Or.inr ⟨h7, Or.inl h5⟩))
              · intro hterm
                rw [h5] at hterm
                unfold isTerminal at hterm
                simp at hterm
            · refine ⟨?_, fun _ => h6⟩
              rcases h3 with h7 | h7
              · exact Or.inr (Or.inr (Or.inl ⟨h7, Or.inr (Or.inl h5)⟩))
              · exact Or.inr (Or.inr (Or.inr ⟨h7, Or.inr (Or.inl h5)⟩))
      · refine ⟨?_, hinv2, ?_⟩
        · have hfill := matchLoop_taker_filled (t.remaining_qty + 1) b t 0 hrem0 hrem
          rw [ht2, hnew, hfill.1]
          unfold AllowedChange
          exact ⟨Or.inr (Or.inl ⟨rfl, Or.inr (Or.inr rfl)⟩), fun _ => hfill.2⟩
        · intro k o o2 h1 h2
          rw [hb2] at h2
          rcases (matchLoop_status (t.remaining_qty + 1) b t 0 hs).2 k o o2 h1 h2 with
            h3 | ⟨h3, h4⟩
          · subst h3
            refine ⟨Or.inl rfl, ?_⟩
            intro hterm
            exact (hs (k, o2) (alGet_mem h1)).2.2 hterm
          · unfold AllowedChange
            rcases h4 with ⟨h5, h6⟩ | ⟨h5, h6⟩
            · refine ⟨?_, ?_⟩
              · rcases h3 with h7 | h7
                · exact Or.inr (Or.inr (Or.inl ⟨h7, Or.inl h5⟩))
                · exact Or.inr (Or.inr (Or.inr ⟨h7, Or.inl h5⟩))
              · intro hterm
                rw [h5] at hterm
                unfold isTerminal at hterm
                simp at hterm
            · refine ⟨?_, fun _ => h6⟩
              rcases h3 with h7 | h7
              · exact Or.inr (Or.inr (Or.inl ⟨h7, Or.inr (Or.inl h5)⟩))
              · exact Or.inr (Or.inr (Or.inr ⟨h7, Or.inr (Or.inl h5)⟩))
  · intro b oid hs
    refine ⟨cancel_statusInv oid hs, ?_⟩
    intro k o o2 h1 h2
    cases hg : alGet b.orders oid with
    | none =>
      rw [cancel_of_none hg] at h2
      rw [h1] at h2
      injection h2 with h3
      subst h3
      refine ⟨Or.inl rfl, fun hterm => (hs (k, o) (alGet_mem h1)).2.2 hterm⟩
    | some oc =>
      by_cases hcond : oc.active = false ∨ oc.remaining_qty = 0
      · rw [cancel_of_dead hg hcond] at h2
        rw [h1] at h2
        injection h2 with h3
        subst h3
        refine ⟨Or.inl rfl, fun hterm => (hs (k, o) (alGet_mem h1)).2.2 hterm⟩
      · have ha : oc.active = true := by
          cases hab : oc.active
          · exact absurd (Or.inl hab) hcond
          · rfl
        have hr : 0 < oc.remaining_qty := by
          rcases Nat.eq_zero_or_pos oc.remaining_qty with h0 | h0
          · exact absurd (Or.inr h0) hcond
          · exact h0
        rw [cancel_of_live hg ha hr] at h2
        by_cases hk : k = oid
        · subst hk
          have h2b : alGet (alSet b.orders k (canceledUpd oc)) k = some o2 := h2
          rw [alGet_set_eq] at h2b
          injection h2b with h3
          subst h3
          have hoc : o = oc := by
            rw [h1] at hg
            exact Option.some.inj hg
          subst hoc
          have hso := hs (k, o) (alGet_mem h1)
          have host := active_nonterminal_status hso.1 hso.2.1 hso.2.2 ha
          unfold AllowedChange canceledUpd
          refine ⟨?_, fun _ => rfl⟩
          rcases host with h7 | h7
          · exact Or.inr (Or.inr (Or.inl ⟨h7, Or.inr (Or.inr rfl)⟩))
          · exact Or.inr (Or.inr (Or.inr ⟨h7, Or.inr (Or.inr rfl)⟩))
        · have h2b : alGet (alSet b.orders oid (canceledUpd oc)) k = some o2 := h2
          rw [alGet_set_ne _ _ _ _ hk, h1] at h2b
          injection h2b with h3
          subst h3
          refine ⟨Or.inl rfl, fun hterm => (hs (k, o) (alGet_mem h1)).2.2 hterm⟩

/-- Witness for claim C3: a fresh NEW buy matched against the example book,
and the initial empty book. -/
theorem claim_C3_witness :
    (AllowedChange exBuy100.status (resTaker exBook1 exBuy100).status ∧
      (isTerminal (resTaker exBook1 exBuy100).status →
        (resTaker exBook1 exBuy100).active = false)) ∧
    StatusInv (resBook exBook1 exBuy100) ∧
    StatusInv (emptyBook "A") := by
  have h2 := (claim_C3).2.1 exBook1 exBuy100 (resBook exBook1 exBuy100)
    (resTaker exBook1 exBuy100) (resTrades exBook1 exBuy100)
    (by decide) (by decide) (by decide) (by decide) (by decide) (by rfl)
  have h1 := (claim_C3).1 (emptyBook "A") (Reachable.init "A")
  exact ⟨h2.1, h2.2.1, h1⟩

/-! ### Snapshot lemmas -/

/-- The level total computed by the snapshot loop is the declarative sum of
remaining quantity over the eligible entries of the queue. -/
theorem sumEligible_eq (orders : List (String × Order)) (q : List String) :
    sumEligible orders q =
      ((q.filter (fun oid => live orders oid)).map (fun oid => remOf orders oid)).sum := by
  induction q with
  | nil => simp [sumEligible]
  | cons oid rest ih =>
    cases hg : alGet orders oid with
    | none =>
      have hl : live orders oid = false := by simp [live, hg]
      rw [show sumEligible orders (oid :: rest) = 0 + sumEligible orders rest by
        simp [sumEligible, hg]]
      simp [hl, ih]
    | some o =>
      by_cases hc : o.active = true ∧ 0 < o.remaining_qty
      · have hl : live orders oid = true := live_of_parts hg hc.1 hc.2
        rw [show sumEligible orders (oid :: rest) = o.remaining_qty + sumEligible orders rest by
          simp [sumEligible, hg, hc]]
        simp [hl, ih, remOf, hg]
      · have hl : live orders oid = false := by
          refine not_live_iff.mpr ?_
          rintro ⟨o2, hg2, ha2, hr2⟩
          rw [hg] at hg2
          exact hc (by cases hg2; exact ⟨ha2, hr2⟩)
        rw [show sumEligible orders (oid :: rest) = 0 + sumEligible orders rest by
          simp [sumEligible, hg, hc]]
        simp [hl, ih]

theorem map_fst_price_map (l : List Nat) (f : Nat → Nat) :
    (l.map (fun p => (p, f p))).map Prod.fst = l := by
  induction l with
  | nil => simp
  | cons a t ih => simp [ih]

theorem getLast?_drop_of_lt {l : List Nat} : ∀ {k : Nat}, k < l.length →
    (l.drop k).getLast? = l.getLast? := by
  induction l with
  | nil =>
    intro k h
    simp at h
  | cons a t ih =>
    intro k h
    cases k with
    | zero => rfl
    | succ k =>
      simp only [List.length_cons, Nat.succ_lt_succ_iff] at h
      rw [List.drop_succ_cons, ih h]
      cases t with
      | nil => simp at h
      | cons b t2 => rw [List.getLast?_cons_cons]

theorem head?_take_of_pos {α : Type} {l : List α} {n : Nat} (h : 0 < n) :
    (l.take n).head? = l.head? := by
  cases l with
  | nil => simp
  | cons a t =>
    cases n with
    | zero => omega
    | succ n => rfl

/-- Claim C8, amended to depth at least 1 (the counterexample shows the bid
side returns every level at depth 0): the snapshot returns at most `n` levels
per side, bid prices strictly descending (best first), ask prices strictly
ascending (best first), the first entry of each non-empty side carries the
best price of that side, and each reported quantity is the sum of remaining
quantity over the currently eligible orders queued at that price.  The
snapshot is a pure read: it is a function of the book producing only the
depth lists. -/
theorem claim_C8 (b : OrderBook) (n : Nat) (hw : Wf b) (hn : 1 ≤ n) :
    ((snapshot_l2 b n).1.length ≤ n ∧ (snapshot_l2 b n).2.length ≤ n) ∧
    (List.Pairwise (· > ·) ((snapshot_l2 b n).1.map Prod.fst) ∧
      List.Pairwise (· < ·) ((snapshot_l2 b n).2.map Prod.fst)) ∧
    (b.bid_prices ≠ [] → ((snapshot_l2 b n).1.head?.map Prod.fst = b.best_bid)) ∧
    (b.ask_prices ≠ [] → ((snapshot_l2 b n).2.head?.map Prod.fst = b.best_ask)) ∧
    (∀ pq ∈ (snapshot_l2 b n).1,
      pq.2 = (((queueOf b Side.BUY pq.1).filter (fun oid => live b.orders oid)).map
        (fun oid => remOf b.orders oid)).sum) ∧
    (∀ pq ∈ (snapshot_l2 b n).2,
      pq.2 = (((queueOf b Side.SELL pq.1).filter (fun oid => live b.orders oid)).map
        (fun oid => remOf b.orders oid)).sum) := by
  have hslice : pyLastSlice b.bid_prices n = b.bid_prices.drop (b.bid_prices.length - n) := by
    unfold pyLastSlice
    rw [if_neg (by omega)]
  have hsortb : List.Pairwise (· < ·) b.bid_prices := hw.1.1
  have hsorta : List.Pairwise (· < ·) b.ask_prices := hw.2.1.1
  refine ⟨⟨?_, ?_⟩, ⟨?_, ?_⟩, ?_, ?_, ?_, ?_⟩
  · show ((pyLastSlice b.bid_prices n).reverse.map _).length ≤ n
    rw [List.length_map, List.length_reverse, hslice, List.length_drop]
    omega
  · show ((b.ask_prices.take n).map _).length ≤ n
    rw [List.length_map, List.length_take]
    omega
  · show List.Pairwise (· > ·) (((pyLastSlice b.bid_prices n).reverse.map _).map Prod.fst)
    rw [map_fst_price_map, List.pairwise_reverse]
    exact hsortb.sublist (hslice ▸ List.drop_sublist _ _)
  · show List.Pairwise (· < ·) (((b.ask_prices.take n).map _).map Prod.fst)
    rw [map_fst_price_map]
    exact hsorta.sublist (List.take_sublist _ _)
  · intro hne
    show (((pyLastSlice b.bid_prices n).reverse.map
      (fun p => (p, sumEligible b.orders ((alGet b.bids p).getD [])))).head?.map Prod.fst =
        b.best_bid)
    rw [List.head?_map, Option.map_map]
    rw [show (Prod.fst ∘ fun p : Nat =>
        (p, sumEligible b.orders ((alGet b.bids p).getD []))) = id from rfl, Option.map_id]
    rw [hslice, List.head?_reverse,
      getLast?_drop_of_lt (by
        have : b.bid_prices.length ≠ 0 := fun h0 => hne (List.length_eq_zero.mp h0)
        omega)]
    rfl
  · intro hne
    show (((b.ask_prices.take n).map
      (fun p => (p, sumEligible b.orders ((alGet b.asks p).getD [])))).head?.map Prod.fst =
        b.best_ask)
    rw [List.head?_map, Option.map_map]
    rw [show (Prod.fst ∘ fun p : Nat =>
        (p, sumEligible b.orders ((alGet b.asks p).getD []))) = id from rfl, Option.map_id]
    rw [head?_take_of_pos (by omega)]
    rfl
  · intro pq hpq
    rcases List.mem_map.mp hpq with ⟨p, hp, hpeq⟩
    rw [← hpeq]
    exact sumEligible_eq b.orders _
  · intro pq hpq
    rcases List.mem_map.mp hpq with ⟨p, hp, hpeq⟩
    rw [← hpeq]
    exact sumEligible_eq b.orders _

/-- Witness for claim C8: depth 1 on the stale example book. -/
theorem claim_C8_witness :
    ((snapshot_l2 exStaleBook 1).1.length ≤ 1 ∧ (snapshot_l2 exStaleBook 1).2.length ≤ 1) ∧
    (exStaleBook.ask_prices ≠ [] →
      ((snapshot_l2 exStaleBook 1).2.head?.map Prod.fst = exStaleBook.best_ask)) := by
  have h := claim_C8 exStaleBook 1 (by decide) (by decide)
  exact ⟨h.1, h.2.2.2.1⟩

/-! ### Priority lemmas -/

/-- Two decompositions of one duplicate-free list: if the element `a` with a
fixed tail also lies in a suffix, the suffix starts no later than `a`. -/
theorem suffix_pattern {α : Type} [DecidableEq α] :
    ∀ (t q2 l1 : List α) (a : α) (rest : List α),
    t ++ q2 = l1 ++ a :: rest → (l1 ++ a :: rest).Nodup → a ∈ q2 →
    ∃ l1b, q2 = l1b ++ a :: rest := by
  intro t
  induction t with
  | nil =>
    intro q2 l1 a rest heq hnd hm
    exact ⟨l1, heq⟩
  | cons c t2 ih =>
    intro q2 l1 a rest heq hnd hm
    cases l1 with
    | nil =>
      simp only [List.nil_append, List.cons_append, List.cons_eq_cons] at heq
      obtain ⟨hca, htl⟩ := heq
      have hnr : a ∉ rest := by
        simp only [List.nil_append, List.nodup_cons] at hnd
        exact hnd.1
      exact absurd (htl ▸ List.mem_append.mpr (Or.inr hm)) hnr
    | cons d l1t =>
      simp only [List.cons_append, List.cons_eq_cons] at heq
      have htl : t2 ++ q2 = l1t ++ a :: rest := heq.2
      have hnd2 : (l1t ++ a :: rest).Nodup := by
        simp only [List.cons_append, List.nodup_cons] at hnd
        exact hnd.2
      exact ih q2 l1t a rest htl hnd2 hm

theorem ordAt_true_iff {orders : List (String × Order)} {oid : String} {s : Side} {p : Nat} :
    ordAt orders oid s p = true ↔
      ∃ o, alGet orders oid = some o ∧ o.side = s ∧ o.price_cents = some p := by
  unfold ordAt
  cases h : alGet orders oid with
  | none => simp
  | some o => simp

theorem ordAt_price_unique {orders : List (String × Order)} {oid : String} {s : Side}
    {p p2 : Nat} (h1 : ordAt orders oid s p = true) (h2 : ordAt orders oid s p2 = true) :
    p = p2 := by
  rcases ordAt_true_iff.mp h1 with ⟨o, hg, _, hp⟩
  rcases ordAt_true_iff.mp h2 with ⟨o2, hg2, _, hp2⟩
  rw [hg] at hg2
  cases hg2
  rw [hp] at hp2
  exact Option.some.inj hp2

theorem queue_ordAt {b : OrderBook} {s : Side} {p : Nat} {q : List String} {oid : String}
    (hw : WfSide b s) (hq : alGet (b.levels s) p = some q) (hm : oid ∈ q) :
    ordAt b.orders oid s p = true :=
  (hw.2.2.2.1 (p, q) (alGet_mem hq)).2.2 oid hm

theorem queue_nodup {b : OrderBook} {s : Side} {p : Nat} {q : List String}
    (hw : WfSide b s) (hq : alGet (b.levels s) p = some q) : q.Nodup :=
  (hw.2.2.2.1 (p, q) (alGet_mem hq)).2.1

theorem live_congr {os2 os : List (String × Order)} {k : String}
    (h : alGet os2 k = alGet os k) : live os2 k = live os k := by
  unfold live
  rw [h]

theorem remOf_congr {os2 os : List (String × Order)} {k : String}
    (h : alGet os2 k = alGet os k) : remOf os2 k = remOf os k := by
  unfold remOf
  rw [h]

theorem HigherPriority_congr {b b2 : OrderBook} {s : Side} {oid1 oid2 : String}
    (hl : b2.levels s = b.levels s) (hp : b2.prices s = b.prices s) :
    HigherPriority b s oid1 oid2 → HigherPriority b2 s oid1 oid2 := by
  unfold HigherPriority queueOf
  rw [hl, hp]
  exact id

/-- An eligible queue entry survives a lazy-deletion evolution. -/
theorem evolve_keep_live {book book1 : OrderBook} {s : Side} {p : Nat} {oid : String}
    (hev : sideEvolve book book1 s) (hm : oid ∈ queueOf book s p)
    (hl : live book.orders oid = true) :
    ∃ q2, alGet (book1.levels s) p = some q2 ∧ oid ∈ q2 := by
  unfold queueOf at hm
  cases hq : alGet (book.levels s) p with
  | none =>
    rw [hq] at hm
    simp at hm
  | some q =>
    rw [hq] at hm
    rcases hev.1 p q hq with hdead | ⟨pre, q2, hq2, hqeq, hpre⟩
    · rw [hdead oid (by simpa using hm)] at hl
      simp at hl
    · refine ⟨q2, hq2, ?_⟩
      rw [hqeq] at hm
      rcases List.mem_append.mp (by simpa using hm) with hx | hx
      · rw [hpre oid hx] at hl
        simp at hl
      · exact hx

/-- Strict price-time priority between two eligible resting orders survives a
lazy-deletion evolution onto a well-formed book. -/
theorem priority_transport {book book1 : OrderBook} {s : Side} {oid1 oid2 : String}
    (hw : Wf book) (hev : sideEvolve book book1 s) (hw1 : Wf book1)
    (hl1 : live book.orders oid1 = true) (hl2 : live book.orders oid2 = true)
    (hpri : HigherPriority book s oid1 oid2) :
    HigherPriority book1 s oid1 oid2 := by
  rcases hpri with ⟨p1, p2, hp1, hp2, hm1, hm2, hbet⟩ | ⟨p, hp, l1, l2, l3, hqeq⟩
  · rcases evolve_keep_live hev hm1 hl1 with ⟨q1, hq1, hmem1⟩
    rcases evolve_keep_live hev hm2 hl2 with ⟨q2, hq2, hmem2⟩
    refine Or.inl ⟨p1, p2, ?_, ?_, ?_, ?_, hbet⟩
    · exact (wfSide_of_wf hw1 s).2.2.1 (p1, q1) (alGet_mem hq1)
    · exact (wfSide_of_wf hw1 s).2.2.1 (p2, q2) (alGet_mem hq2)
    · unfold queueOf
      rw [hq1]
      simpa using hmem1
    · unfold queueOf
      rw [hq2]
      simpa using hmem2
  · have halG : alGet (book.levels s) p = some (l1 ++ oid1 :: (l2 ++ oid2 :: l3)) := by
      unfold queueOf at hqeq
      cases hq : alGet (book.levels s) p with
      | none =>
        rw [hq] at hqeq
        simp at hqeq
      | some q =>
        rw [hq] at hqeq
        rw [show q = l1 ++ oid1 :: (l2 ++ oid2 :: l3) from hqeq]
    have hnd := queue_nodup (wfSide_of_wf hw s) halG
    rcases hev.1 p _ halG with hdead | ⟨pre, q2, hq2, hqeq2, hpre⟩
    · rw [hdead oid1 (by simp)] at hl1
      simp at hl1
    · have hm1 : oid1 ∈ q2 := by
        have hmfull : oid1 ∈ pre ++ q2 := by
          rw [← hqeq2]
          simp
        rcases List.mem_append.mp hmfull with hx | hx
        · rw [hpre oid1 hx] at hl1
          simp at hl1
        · exact hx
      rcases suffix_pattern pre q2 l1 oid1 (l2 ++ oid2 :: l3) hqeq2.symm hnd hm1 with ⟨l1b, hsp⟩
      refine Or.inr ⟨p, ?_, l1b, l2, l3, ?_⟩
      · exact (wfSide_of_wf hw1 s).2.2.1 (p, q2) (alGet_mem hq2)
      · unfold queueOf
        rw [hq2]
        exact hsp

/-- An order update that keeps the id, side and limit price of an existing
entry preserves well-formedness. -/
theorem Wf_update {b : OrderBook} {k : String} {o v : Order} (hw : Wf b)
    (hg : alGet b.orders k = some o) (hid : v.order_id = o.order_id)
    (hside : v.side = o.side) (hprice : v.price_cents = o.price_cents) :
    Wf (withOrders b (alSet b.orders k v)) := by
  have hword : ∀ oid s p, ordAt b.orders oid s p = true →
      ordAt (alSet b.orders k v) oid s p = true := by
    intro oid s p h
    by_cases hk : oid = k
    · subst hk
      rcases ordAt_true_iff.mp h with ⟨o2, hg2, hs2, hp2⟩
      rw [hg] at hg2
      cases hg2
      refine ordAt_true_iff.mpr ⟨v, alGet_set_eq _ _ _, ?_, ?_⟩
      · rw [hside]
        exact hs2
      · rw [hprice]
        exact hp2
    · rcases ordAt_true_iff.mp h with ⟨o2, hg2, hs2, hp2⟩
      exact ordAt_true_iff.mpr ⟨o2, by rw [alGet_set_ne _ _ _ _ hk]; exact hg2, hs2, hp2⟩
  have hwside : ∀ s, WfSide (withOrders b (alSet b.orders k v)) s := by
    intro s
    obtain ⟨hsort, hsync1, hsync2, hque, hnd⟩ := wfSide_of_wf hw s
    refine ⟨?_, ?_, ?_, ?_, ?_⟩
    · rw [withOrders_prices]
      exact hsort
    · intro p hp
      rw [withOrders_levels]
      exact hsync1 p (by rw [withOrders_prices] at hp; exact hp)
    · intro pr hpr
      rw [withOrders_levels] at hpr
      rw [withOrders_prices]
      exact hsync2 pr hpr
    · intro pr hpr
      rw [withOrders_levels] at hpr
      have h2 := hque pr hpr
      refine ⟨h2.1, h2.2.1, ?_⟩
      intro oid ho
      rw [withOrders_orders]
      exact hword oid s pr.1 (h2.2.2 oid ho)
    · rw [withOrders_levels]
      exact hnd
  refine ⟨hwside Side.BUY, hwside Side.SELL, ?_⟩
  intro pr hpr
  rw [withOrders_orders] at hpr
  rcases mem_alSet hpr with h2 | h2
  · exact hw.2.2 pr h2
  · rw [h2]
    rw [hid]
    exact hw.2.2 (k, o) (alGet_mem hg)

theorem queueOf_cons_alGet {b : OrderBook} {s : Side} {p : Nat} {q : List String}
    (h : queueOf b s p = q) (hne : q ≠ []) : alGet (b.levels s) p = some q := by
  unfold queueOf at h
  cases hg : alGet (b.levels s) p with
  | none =>
    rw [hg] at h
    exact absurd h.symm hne
  | some q2 =>
    rw [hg] at h
    rw [show q2 = q from h]

/-- The lazy best-resting lookup never returns an eligible maker over which
another eligible resting order has strict price-time priority. -/
theorem priority_not_first {book book1 : OrderBook} {s : Side} {oid1 oid2 : String} {m : Order}
    (hw : Wf book) (hne : oid1 ≠ oid2)
    (hgbr : get_best_resting book s = (book1, some (oid2, m)))
    (hl1 : live book.orders oid1 = true)
    (hpri : HigherPriority book s oid1 oid2) : False := by
  rcases gbrAux_some_struct s _ hw hgbr with ⟨pM, preM, restM, hpMmem, hbp1, hlM, hdeadM, hlM1⟩
  have hev : sideEvolve book book1 s := by
    rw [show book1 = (get_best_resting book s).1 by rw [hgbr]]
    exact (gbrAux_package s _ book).2.2.1
  have hw1 : Wf book1 := by
    rw [show book1 = (get_best_resting book s).1 by rw [hgbr]]
    exact (gbrAux_package s _ book).2.2.2.2 hw
  rcases hpri with ⟨p1, p2, hp1, hp2, hm1, hm2, hbet⟩ | ⟨p, hp, l1, l2, l3, hqeq⟩
  · have hq2 : ∃ q, alGet (book.levels s) p2 = some q ∧ oid2 ∈ q := by
      unfold queueOf at hm2
      cases hq : alGet (book.levels s) p2 with
      | none =>
        rw [hq] at hm2
        simp at hm2
      | some q =>
        rw [hq] at hm2
        exact ⟨q, rfl, by simpa using hm2⟩
    rcases hq2 with ⟨q2l, hq2g, hq2m⟩
    have hord1 := queue_ordAt (wfSide_of_wf hw s) hq2g hq2m
    have hord2 := queue_ordAt (wfSide_of_wf hw s) hlM
      (show oid2 ∈ preM ++ oid2 :: restM by simp)
    have hpeq : p2 = pM := ordAt_price_unique hord1 hord2
    rcases evolve_keep_live hev hm1 hl1 with ⟨q1b, hq1b, hm1b⟩
    have hp1mem : p1 ∈ book1.prices s := (wfSide_of_wf hw1 s).2.2.1 (p1, q1b) (alGet_mem hq1b)
    exact bestPrice_best (wfSide_of_wf hw1 s).1 hbp1 p1 hp1mem (hpeq ▸ hbet)
  · have halG := queueOf_cons_alGet hqeq (by simp)
    have hnd := queue_nodup (wfSide_of_wf hw s) halG
    have hordA := queue_ordAt (wfSide_of_wf hw s) halG
      (show oid2 ∈ l1 ++ oid1 :: (l2 ++ oid2 :: l3) by simp)
    have hordB := queue_ordAt (wfSide_of_wf hw s) hlM
      (show oid2 ∈ preM ++ oid2 :: restM by simp)
    have hpeq : p = pM := ordAt_price_unique hordA hordB
    rw [hpeq, hlM] at halG
    have hqq : preM ++ oid2 :: restM = l1 ++ oid1 :: (l2 ++ oid2 :: l3) :=
      Option.some.inj halG
    have hm1f : oid1 ∈ oid2 :: restM := by
      have hx : oid1 ∈ preM ++ oid2 :: restM := by
        rw [hqq]
        simp
      rcases List.mem_append.mp hx with hx | hx
      · rw [hdeadM oid1 hx] at hl1
        simp at hl1
      · exact hx
    rcases suffix_pattern preM (oid2 :: restM) l1 oid1 (l2 ++ oid2 :: l3) hqq hnd hm1f
      with ⟨l1b, hsp⟩
    have hnd2 : (oid2 :: restM).Nodup := by
      have h3 : (preM ++ oid2 :: restM).Nodup := by
        rw [hqq]
        exact hnd
      exact h3.of_append_right
    cases l1b with
    | nil =>
      simp only [List.nil_append, List.cons_eq_cons] at hsp
      exact hne hsp.1.symm
    | cons c l1b2 =>
      simp only [List.cons_append, List.cons_eq_cons] at hsp
      have hmem : oid2 ∈ restM := by
        rw [hsp.2]
        simp
      exact (List.nodup_cons.mp hnd2).1 hmem

/-- One productive loop iteration against a maker distinct from the two
tracked orders preserves well-formedness, their eligibility and remaining
quantity, and the priority relation between them. -/
theorem step_reestablish (qty : Nat) {book book1 : OrderBook} {s : Side} {oidM : String}
    {m : Order} {oid1 oid2 : String}
    (hw : Wf book)
    (hgbr : get_best_resting book s = (book1, some (oidM, m)))
    (hM1 : oidM ≠ oid1) (hM2 : oidM ≠ oid2)
    (hl1 : live book.orders oid1 = true) (hl2 : live book.orders oid2 = true)
    (hpri : HigherPriority book s oid1 oid2) :
    Wf (withOrders book1 (alSet book1.orders oidM (fillUpdate m qty))) ∧
    live (withOrders book1 (alSet book1.orders oidM (fillUpdate m qty))).orders oid1 = true ∧
    live (withOrders book1 (alSet book1.orders oidM (fillUpdate m qty))).orders oid2 = true ∧
    remOf (withOrders book1 (alSet book1.orders oidM (fillUpdate m qty))).orders oid1 =
      remOf book.orders oid1 ∧
    HigherPriority (withOrders book1 (alSet book1.orders oidM (fillUpdate m qty))) s oid1 oid2 := by
  have helig := gbr_some_elig hgbr
  have hords1 : book1.orders = book.orders := by
    rw [show book1 = (get_best_resting book s).1 by rw [hgbr]]
    exact (gbrAux_package s _ book).1
  have hev : sideEvolve book book1 s := by
    rw [show book1 = (get_best_resting book s).1 by rw [hgbr]]
    exact (gbrAux_package s _ book).2.2.1
  have hw1 : Wf book1 := by
    rw [show book1 = (get_best_resting book s).1 by rw [hgbr]]
    exact (gbrAux_package s _ book).2.2.2.2 hw
  have hmget : alGet book1.orders oidM = some m := by
    rw [hords1]
    exact helig.1
  have hg1 : alGet (withOrders book1 (alSet book1.orders oidM (fillUpdate m qty))).orders oid1 =
      alGet book.orders oid1 := by
    rw [withOrders_orders, alGet_set_ne _ _ _ _ (Ne.symm hM1), hords1]
  have hg2 : alGet (withOrders book1 (alSet book1.orders oidM (fillUpdate m qty))).orders oid2 =
      alGet book.orders oid2 := by
    rw [withOrders_orders, alGet_set_ne _ _ _ _ (Ne.symm hM2), hords1]
  refine ⟨Wf_update hw1 hmget rfl rfl rfl, ?_, ?_, remOf_congr hg1, ?_⟩
  · rw [live_congr hg1]
    exact hl1
  · rw [live_congr hg2]
    exact hl2
  · exact HigherPriority_congr (withOrders_levels _ _ s) (withOrders_prices _ _ s)
      (priority_transport hw hev hw1 hl1 hl2 hpri)

/-- Price-time priority across the whole match loop: on a well-formed book,
whenever the loop fills a maker over which another eligible resting order on
the same side has strict priority, an earlier trade of the same loop already
consumed the whole remaining quantity of the prioritised order. -/
theorem matchLoop_priority (oid1 oid2 : String) (hne : oid1 ≠ oid2) (f : Nat) :
    ∀ (book : OrderBook) (taker : Order) (nid : Nat),
    Wf book →
    live book.orders oid1 = true → live book.orders oid2 = true →
    HigherPriority book (oppSide taker.side) oid1 oid2 →
    ∀ j tj, (matchLoopAux f book taker nid).2.2.get? j = some tj →
      tj.maker_order_id = oid2 →
      ∃ i ti, i < j ∧ (matchLoopAux f book taker nid).2.2.get? i = some ti ∧
        ti.maker_order_id = oid1 ∧ ti.qty = remOf book.orders oid1 := by
  induction f with
  | zero =>
    intro book taker nid _ _ _ _ j tj hget _
    simp [matchLoopAux] at hget
  | succ f ih =>
    intro book taker nid hw hl1 hl2 hpri j tj hget hmk
    by_cases hrem : 0 < taker.remaining_qty
    · by_cases hcross : takerCrosses book taker = true
      · cases hgbr : get_best_resting book (oppSide taker.side) with
        | mk book1 r =>
          cases r with
          | none =>
            rw [matchLoop_stop_none hrem hcross hgbr] at hget
            simp at hget
          | some om =>
            obtain ⟨oidM, m⟩ := om
            have hstep := @matchLoop_step f book book1 taker nid oidM m hrem hcross hgbr
            have helig := gbr_some_elig hgbr
            have hmid : m.order_id = oidM := hw.2.2 (oidM, m) (alGet_mem helig.1)
            by_cases hM2 : oidM = oid2
            · exact (priority_not_first hw hne (by rw [← hM2]; exact hgbr) hl1 hpri).elim
            · by_cases hM1 : oidM = oid1
              · subst hM1
                cases j with
                | zero =>
                  have htj : tj = mkTrade nid book.symbol m taker
                      (min taker.remaining_qty m.remaining_qty) := by
                    rw [hstep] at hget
                    exact (Option.some.inj hget).symm
                  rw [htj] at hmk
                  have hmoid : m.order_id = oid2 := hmk
                  exact absurd (hmid.symm.trans hmoid) hne
                | succ j2 =>
                  have hget2 : (matchLoopAux f
                      (withOrders book1 (alSet book1.orders oidM
                        (fillUpdate m (min taker.remaining_qty m.remaining_qty))))
                      (fillUpdate taker (min taker.remaining_qty m.remaining_qty))
                      (nid + 1)).2.2.get? j2 = some tj := by
                    rw [hstep] at hget
                    exact hget
                  by_cases hcmp : m.remaining_qty ≤ taker.remaining_qty
                  · refine ⟨0, mkTrade nid book.symbol m taker
                      (min taker.remaining_qty m.remaining_qty), by omega, ?_, hmid, ?_⟩
                    · rw [hstep]
                      rfl
                    · show min taker.remaining_qty m.remaining_qty = remOf book.orders oidM
                      have hr : remOf book.orders oidM = m.remaining_qty := by
                        unfold remOf
                        rw [helig.1]
                      rw [Nat.min_eq_right hcmp, hr]
                  · have ht2 : (fillUpdate taker
                        (min taker.remaining_qty m.remaining_qty)).remaining_qty = 0 := by
                      show taker.remaining_qty - min taker.remaining_qty m.remaining_qty = 0
                      omega
                    rw [matchLoop_zero_rem ht2] at hget2
                    simp at hget2
              · obtain ⟨hw2, hl1b, hl2b, hrem1eq, hpri2⟩ :=
                  step_reestablish (min taker.remaining_qty m.remaining_qty)
                    hw hgbr hM1 hM2 hl1 hl2 hpri
                cases j with
                | zero =>
                  have htj : tj = mkTrade nid book.symbol m taker
                      (min taker.remaining_qty m.remaining_qty) := by
                    rw [hstep] at hget
                    exact (Option.some.inj hget).symm
                  rw [htj] at hmk
                  have hmoid : m.order_id = oid2 := hmk
                  exact absurd (hmid.symm.trans hmoid) hM2
                | succ j2 =>
                  have hget2 : (matchLoopAux f
                      (withOrders book1 (alSet book1.orders oidM
                        (fillUpdate m (min taker.remaining_qty m.remaining_qty))))
                      (fillUpdate taker (min taker.remaining_qty m.remaining_qty))
                      (nid + 1)).2.2.get? j2 = some tj := by
                    rw [hstep] at hget
                    exact hget
                  obtain ⟨i2, ti, hij, hgeti, hmaki, hqtyi⟩ :=
                    ih (withOrders book1 (alSet book1.orders oidM
                        (fillUpdate m (min taker.remaining_qty m.remaining_qty))))
                      (fillUpdate taker (min taker.remaining_qty m.remaining_qty))
                      (nid + 1) hw2 hl1b hl2b hpri2 j2 tj hget2 hmk
                  refine ⟨i2 + 1, ti, by omega, ?_, hmaki, ?_⟩
                  · rw [hstep]
                    exact hgeti
                  · rw [← hrem1eq]
                    exact hqtyi
      · rw [matchLoop_stop_cross hrem hcross] at hget
        simp at hget
    · rw [matchLoop_stop_zero hrem] at hget
      simp at hget

/-- Claim C4: a taker whose symbol differs from the book symbol, or whose type
is MARKET, is rejected in place: status REJECTED, inactive, empty trade list,
no exception, and the book is returned with every component unchanged. -/
theorem claim_C4 (b : OrderBook) (t : Order)
    (h : t.symbol ≠ b.symbol ∨ t.type = OrderType.MARKET) :
    match_order b t =
      Except.ok (b, { t with status := OrderStatus.REJECTED, active := false }, []) := by
  rcases h with h | h
  · simp [match_order, h]
  · by_cases hs : t.symbol = b.symbol
    · have hl : t.type ≠ OrderType.LIMIT := by simp [h]
      simp [match_order, hs, hl]
    · simp [match_order, hs]

/-- Witness for claim C4: a taker for MSFT against a book for symbol A. -/
theorem claim_C4_witness :
    (exMsft.symbol ≠ (emptyBook "A").symbol ∨ exMsft.type = OrderType.MARKET) ∧
    match_order (emptyBook "A") exMsft =
      Except.ok (emptyBook "A", { exMsft with status := OrderStatus.REJECTED, active := false }, []) :=
  ⟨Or.inl (by decide), claim_C4 (emptyBook "A") exMsft (Or.inl (by decide))⟩

/-- Claim C5: cancel succeeds exactly when the order exists, is active and has
positive remaining quantity; success stores the order as CANCELED, inactive
and with zero remaining quantity; a second cancel and a cancel of an unknown
id fail; and cancel never changes the queues or the sorted price lists. -/
theorem claim_C5 (b : OrderBook) (oid : String) :
    ((b.cancel oid).2 = true ↔
      ∃ o, alGet b.orders oid = some o ∧ o.active = true ∧ 0 < o.remaining_qty) ∧
    (∀ o, alGet b.orders oid = some o → o.active = true → 0 < o.remaining_qty →
      alGet (b.cancel oid).1.orders oid = some (canceledUpd o)) ∧
    ((b.cancel oid).2 = true → ((b.cancel oid).1.cancel oid).2 = false) ∧
    (alGet b.orders oid = none → (b.cancel oid).2 = false) ∧
    ((b.cancel oid).1.bids = b.bids ∧ (b.cancel oid).1.asks = b.asks ∧
      (b.cancel oid).1.bid_prices = b.bid_prices ∧ (b.cancel oid).1.ask_prices = b.ask_prices) := by
  have hchar : ∀ o, alGet b.orders oid = some o → o.active = true → 0 < o.remaining_qty →
      alGet (b.cancel oid).1.orders oid = some (canceledUpd o) := by
    intro o h ha hr
    rw [cancel_of_live h ha hr]
    exact alGet_set_eq _ _ _
  refine ⟨⟨cancel_true_elim, ?_⟩, hchar, ?_, ?_, ?_⟩
  · rintro ⟨o, hg, ha, hr⟩
    rw [cancel_of_live hg ha hr]
  · intro h
    rcases cancel_true_elim h with ⟨o, hg, ha, hr⟩
    have h2 := hchar o hg ha hr
    have h3 : (canceledUpd o).active = false := rfl
    rw [cancel_of_dead h2 (Or.inl h3)]
  · intro h
    rw [cancel_of_none h]
  · cases hg : alGet b.orders oid with
    | none =>
      rw [cancel_of_none hg]
      exact ⟨rfl, rfl, rfl, rfl⟩
    | some o =>
      by_cases ha : o.active = true
      · by_cases hr : 0 < o.remaining_qty
        · rw [cancel_of_live hg ha hr]
          exact ⟨rfl, rfl, rfl, rfl⟩
        · rw [cancel_of_dead hg (Or.inr (Nat.eq_zero_of_not_pos hr))]
          exact ⟨rfl, rfl, rfl, rfl⟩
      · have ha2 : o.active = false := by
          cases hab : o.active
          · rfl
          · exact absurd hab ha
        rw [cancel_of_dead hg (Or.inl ha2)]
        exact ⟨rfl, rfl, rfl, rfl⟩

/-- Claim C1, evaluated at the failing input: with a canceled (stale) sell
resting at 100 and a live sell resting at 110, a BUY taker with limit 105
passes the crossing test against the stale best ask 100, but the lazy lookup
then matches the maker at 110, so the single produced trade executes at 110,
strictly above the taker limit of 105.  The book is reached from an empty book
through public operations only. -/
theorem claim_C1 :
    exBuy105.side = Side.BUY ∧ exBuy105.price_cents = some 105 ∧
    (resTrades exStaleBook exBuy105).map Trade.price_cents = [110] ∧
    ¬ (110 ≤ 105) := by decide

/-- Claim C10: on a reachable book whose best ask level 100 holds only a
canceled order, the depth-1 snapshot reports the stale level with aggregate
quantity 0, and that level crowds the live level 110 out of the reported
depth. -/
theorem claim_C10 :
    (snapshot_l2 exStaleBook 1).2 = [(100, 0)] ∧
    (110 ∈ exStaleBook.ask_prices ∧ live exStaleBook.orders "s2" = true ∧
      ordAt exStaleBook.orders "s2" Side.SELL 110 = true) ∧
    110 ∉ ((snapshot_l2 exStaleBook 1).2.map Prod.fst) := by decide

/-- Counterexample to claim C8 as stated: at depth 0 the bid side of the
snapshot is not empty, because the slice of the last 0 prices taken by the
code is the whole price list. -/
theorem claim_C8_counterexample :
    (snapshot_l2 exBidBook 0).1.length = 1 ∧
    ¬ ((snapshot_l2 exBidBook 0).1.length ≤ 0) := by decide

/-- Counterexample to claim C3 as stated: a direct `add_resting_limit` call on
a CANCELED order moves its stored status back to RESTING, so the terminal
status CANCELED can be left when arbitrary operation sequences including
direct `add_resting_limit` calls are allowed. -/
theorem claim_C3_counterexample :
    (alGet exC3CancelBook.orders "o1").map Order.status = some OrderStatus.CANCELED ∧
    (alGet exC3ReaddBook.orders "o1").map Order.status = some OrderStatus.RESTING := by decide

/-- Witness for claim C5: the book holding one live resting sell, canceled by
id, exercising the success characterization and the idempotence part. -/
theorem claim_C5_witness :
    ((exBook1.cancel "s1").2 = true ↔
      ∃ o, alGet exBook1.orders "s1" = some o ∧ o.active = true ∧ 0 < o.remaining_qty) ∧
    (((exBook1.cancel "s1").1.cancel "s1").2 = false) ∧
    ((exBook1.cancel "nope").2 = false) := by
  refine ⟨(claim_C5 exBook1 "s1").1, ?_, ?_⟩
  · exact (claim_C5 exBook1 "s1").2.2.1 (by decide)
  · exact (claim_C5 exBook1 "nope").2.2.2.1 (by decide)

/-- Claim C6: makers are consumed in price-time priority order by every
`match_order` call.  If the eligible resting order `oid1` has strict priority
over the eligible resting order `oid2` on the taker-opposite side of a
well-formed book — a strictly better price, or the same price with an earlier
queue position — then any trade filling `oid2` is preceded in the returned
trade list by a trade that fills `oid1` with its entire resting remaining
quantity. -/
theorem claim_C6 (b : OrderBook) (t : Order) (b2 : OrderBook) (t2 : Order) (tr : List Trade)
    (oid1 oid2 : String)
    (hw : Wf b) (hne : oid1 ≠ oid2)
    (hl1 : live b.orders oid1 = true) (hl2 : live b.orders oid2 = true)
    (hpri : HigherPriority b (oppSide t.side) oid1 oid2)
    (h : match_order b t = Except.ok (b2, t2, tr)) :
    ∀ j tj, tr.get? j = some tj → tj.maker_order_id = oid2 →
      ∃ i ti, i < j ∧ tr.get? i = some ti ∧
        ti.maker_order_id = oid1 ∧ ti.qty = remOf b.orders oid1 := by
  intro j tj hget hmk
  by_cases hrej : t.symbol ≠ b.symbol ∨ t.type ≠ OrderType.LIMIT
  · rw [match_order_reject hrej] at h
    rw [Except.ok.injEq, Prod.mk.injEq, Prod.mk.injEq] at h
    rw [← h.2.2] at hget
    simp at hget
  · push_neg at hrej
    rcases match_order_ok_cases hrej.1 hrej.2 h with hcase | hcase
    all_goals
      have htr := hcase.2.2.2
      subst htr
      exact matchLoop_priority oid1 oid2 hne (t.remaining_qty + 1) b t 0
        hw hl1 hl2 hpri j tj hget hmk

/-- Witness for claim C6: in the FIFO example book two sells "f1" and "f2"
rest at 100 in arrival order; the buy taker for 6 produces the trade list
[("f1", 4), ("f2", 2)], and the theorem applied at the index-1 trade filling
"f2" yields an earlier trade filling "f1" with its whole remaining 4. -/
theorem claim_C6_witness :
    (resTrades exFifoBook exFifoBuy).get? 1 =
      some { trade_id := 1, symbol := "A", price_cents := 100, qty := 2,
             maker_order_id := "f2", taker_order_id := "f3", ts_ms := 0 } ∧
    ∃ i ti, i < 1 ∧ (resTrades exFifoBook exFifoBuy).get? i = some ti ∧
      ti.maker_order_id = "f1" ∧ ti.qty = remOf exFifoBook.orders "f1" := by
  refine ⟨by rfl, ?_⟩
  exact claim_C6 exFifoBook exFifoBuy (resBook exFifoBook exFifoBuy)
    (resTaker exFifoBook exFifoBuy) (resTrades exFifoBook exFifoBuy) "f1" "f2"
    (by decide) (by decide) (by decide) (by decide)
    (Or.inr ⟨100, by decide, [], [], [], by decide⟩) (by rfl) 1
    { trade_id := 1, symbol := "A", price_cents := 100, qty := 2,
      maker_order_id := "f2", taker_order_id := "f3", ts_ms := 0 }
    (by rfl) (by rfl)

end Exchange
